import Mathlib

/-!
Verification of the redaction/restoration engine of the `redactly` browser
extension against its natural-language specification.

The development shallowly embeds the TypeScript sources:

* `src/content-scripts/shared/redactor.ts` — `compileRule`, `escapeRegExp`,
  `redact`, `unredact`;
* the `EditableFieldHandler` class (re-entrancy guard around programmatic
  rewrites);
* `src/content-scripts/shared/clipboard.ts` — `createClipboardListener`.

Modelling conventions:

* JavaScript strings are modelled as `List Char`.
* `new RegExp(pattern, flags)` is modelled on the literal fragment of the
  JavaScript pattern grammar: a pattern is accepted iff every character is
  either an ordinary (non-metacharacter) character, or a backslash escape of a
  metacharacter; such a pattern denotes literal-text matching.  Every other
  pattern — which includes every pattern that real JavaScript rejects with a
  `SyntaxError`, since escaped-literal patterns are always valid — is mapped to
  `none`, which models the thrown exception caught by `compileRule`'s
  try/catch.  The metacharacter set is exactly the character class used by
  `escapeRegExp` in the source.
* `String.prototype.replace` with a global regex is modelled by `replaceAll`,
  including the ECMAScript `GetSubstitution` treatment of `$` patterns in the
  replacement string (`$$`, `$&`, dollar-backquote, dollar-quote; group
  references degrade to literal text because the modelled patterns have no
  capture groups) and the empty-pattern behaviour (an empty pattern matches at
  every position).  Case-insensitive matching (`i` flag) is modelled by
  simple `toLower` folding, which agrees with JavaScript on ASCII.
* `Array.prototype.sort(cmp)` is modelled by a stable insertion sort driven by
  the integer comparator, which is the behaviour ECMAScript 2019+ requires for
  a consistent comparator.
-/

/-- Characters written via their code points so that the source text of this
file stays free of brace and backquote tokens. -/
def lbraceChar : Char := Char.ofNat 123

/-- Right brace character, via its code point. -/
def rbraceChar : Char := Char.ofNat 125

/-- Backquote character, via its code point. -/
def backquoteChar : Char := Char.ofNat 96

/-- Rule matching kind: `exact` (literal substring) or `regex` (user pattern).
Mirrors `RuleType` in `src/types/rules.ts`. -/
inductive RuleType where
  | exact : RuleType
  | regex : RuleType
deriving DecidableEq, Repr

/-- A user-authored rewrite rule, mirroring the `Rule` interface of
`src/types/rules.ts` field by field.  Strings are `List Char`. -/
structure Rule where
  id : List Char
  original : List Char
  placeholder : List Char
  type : RuleType
  enabled : Bool
  caseSensitive : Bool
  priority : Int
  createdAt : List Char
  updatedAt : List Char
deriving DecidableEq, Repr

/-- Result of a redaction pass, mirroring `RedactionResult`. -/
structure RedactionResult where
  text : List Char
  appliedRules : List (List Char)
deriving DecidableEq, Repr

/-- A compiled regular expression of the modelled literal fragment: it matches
the literal text `pat`, case-insensitively when `ignoreCase` is set (the `i`
flag; the `g` flag is implicit in `replaceAll`). -/
structure Matcher where
  pat : List Char
  ignoreCase : Bool
deriving DecidableEq, Repr

/-- Compiled rule, mirroring the `CompiledRule` interface of `redactor.ts`:
the spread keeps every `Rule` field, `regex` holds the compiled matcher
(`RegExp | undefined`), and `priority` is the value the compiler assigned
(exact=2, regex=1), shadowing the rule's own `priority` field. -/
structure CompiledRule where
  rule : Rule
  regex : Option Matcher
  priority : Int
deriving DecidableEq, Repr

/-- Test for the characters of the class `[.*+?^$()|[]\]` and braces used by
`escapeRegExp` in the source. -/
def isMeta (c : Char) : Bool :=
  c = '.' || c = '*' || c = '+' || c = '?' || c = '^' || c = '$' ||
  c = lbraceChar || c = rbraceChar || c = '(' || c = ')' || c = '|' ||
  c = '[' || c = ']' || c = '\\'

/-- Escape special regex characters for exact matching; mirrors
`escapeRegExp` (`text.replace(/[.*+?^$()|[\]\\]/g, backslash-dollar-amp)`,
with braces included in the class). -/
def escapeRegExp : List Char → List Char
  | [] => []
  | c :: rest => (if isMeta c then ['\\', c] else [c]) ++ escapeRegExp rest

/-- Parse a pattern of the modelled literal fragment of the JavaScript regex
grammar into the literal character list it matches.  `none` models a pattern
outside the fragment; in particular every pattern real JavaScript rejects
with a `SyntaxError` is mapped to `none` (see the module docstring). -/
def parseLit : List Char → Option (List Char)
  | [] => some []
  | c :: rest =>
      if c = '\\' then
        match rest with
        | [] => none
        | d :: rest' =>
            if isMeta d then (parseLit rest').map (fun p => d :: p) else none
      else if isMeta c then none
      else (parseLit rest).map (fun p => c :: p)

/-- Model of `new RegExp(pattern, flags)`: `some` is a successful compile,
`none` models a thrown `SyntaxError`. -/
def newRegExp (pattern : List Char) (ignoreCase : Bool) : Option Matcher :=
  (parseLit pattern).map (fun p => Matcher.mk p ignoreCase)

/-- Character comparison used during matching: exact equality, or `toLower`
folding under the `i` flag. -/
def jsCharEq (ic : Bool) (p c : Char) : Bool :=
  if ic then p.toLower == c.toLower else p == c

/-- Try to match the literal pattern `pat` against a prefix of `s`; on success
return the actually matched characters of `s` (relevant under the `i` flag)
and the remaining suffix. -/
def matchPre (ic : Bool) : List Char → List Char → Option (List Char × List Char)
  | [], s => some ([], s)
  | _ :: _, [] => none
  | p :: ps, c :: cs =>
      if jsCharEq ic p c then
        (matchPre ic ps cs).map (fun pr => (c :: pr.1, pr.2))
      else none

/-- ECMAScript `GetSubstitution` for a match with no capture groups: expand
`$` patterns in the replacement template.  `matched` is the matched text,
`before` the part of the subject before the match, `after` the part after. -/
def substRepl (matched before after : List Char) : List Char → List Char
  | [] => []
  | c :: rest =>
      if c = '$' then
        match rest with
        | [] => ['$']
        | d :: rest' =>
            if d = '$' then '$' :: substRepl matched before after rest'
            else if d = '&' then matched ++ substRepl matched before after rest'
            else if d = backquoteChar then before ++ substRepl matched before after rest'
            else if d = '\'' then after ++ substRepl matched before after rest'
            else '$' :: substRepl matched before after (d :: rest')
      else c :: substRepl matched before after rest

/-- Worker loop of `replaceAll`.  `done` is the already-consumed part of the
subject in reverse (needed by the dollar-backquote substitution), `fuel` is a
structural-termination bound that is never exhausted when it exceeds the
length of `s`. -/
def raGo (m : Matcher) (repl : List Char) : Nat → List Char → List Char → List Char
  | 0, _, _ => []
  | fuel + 1, done, s =>
      match matchPre m.ignoreCase m.pat s with
      | some (matched, rest) =>
          if matched.isEmpty then
            match s with
            | [] => substRepl matched done.reverse rest repl
            | c :: cs =>
                substRepl matched done.reverse rest repl ++
                  c :: raGo m repl fuel (c :: done) cs
          else
            substRepl matched done.reverse rest repl ++
              raGo m repl fuel (matched.reverse ++ done) rest
      | none =>
          match s with
          | [] => []
          | c :: cs => c :: raGo m repl fuel (c :: done) cs

/-- Model of `subject.replace(regex, replacement)` where `regex` carries the
`g` flag: replace every match of `m` in `s` by the expansion of `repl`. -/
def replaceAll (m : Matcher) (repl s : List Char) : List Char :=
  raGo m repl (s.length + 1) [] s

/-- Stable insertion of `x` into `l` driven by a JavaScript sort comparator:
`x` is placed before the first element it need not follow. -/
def jsInsert {α : Type} (cmp : α → α → Int) (x : α) : List α → List α
  | [] => [x]
  | y :: ys => if cmp x y ≤ 0 then x :: y :: ys else y :: jsInsert cmp x ys

/-- Model of `Array.prototype.sort(cmp)` for a consistent comparator: the
stable sort ECMAScript 2019+ requires. -/
def jsSort {α : Type} (cmp : α → α → Int) : List α → List α
  | [] => []
  | x :: xs => jsInsert cmp x (jsSort cmp xs)

/-- Compile a rule into an optimized format with priority; mirrors
`compileRule` of `redactor.ts`.  Note the returned `priority` is the local
variable (exact=2, regex=1): the object spread discards the rule's own
`priority` field.  The regex branch's try/catch appears as the `Option`
match; the fallback escapes the pattern and retries. -/
def compileRule (rule : Rule) : CompiledRule :=
  match rule.type with
  | RuleType.exact =>
      { rule := rule
        regex := newRegExp (escapeRegExp rule.original) (!rule.caseSensitive)
        priority := 2 }
  | RuleType.regex =>
      match newRegExp rule.original (!rule.caseSensitive) with
      | some r => { rule := rule, regex := some r, priority := 1 }
      | none =>
          { rule := rule
            regex := newRegExp (escapeRegExp rule.original) (!rule.caseSensitive)
            priority := 1 }

/-- Comparator `(a, b) => b.priority - a.priority` used by `redact`. -/
def redactCmp (a b : CompiledRule) : Int := b.priority - a.priority

/-- Comparator `(a, b) => a.priority - b.priority` used by `unredact`. -/
def unredactCmp (a b : CompiledRule) : Int := a.priority - b.priority

/-- Loop body of `redact`: apply one compiled rule to the accumulated state,
recording the rule id iff the text changed. -/
def applyCompiled (st : RedactionResult) (cr : CompiledRule) : RedactionResult :=
  match cr.regex with
  | some m =>
      let redactedText := replaceAll m cr.rule.placeholder st.text
      if st.text = redactedText then
        { text := redactedText, appliedRules := st.appliedRules }
      else
        { text := redactedText, appliedRules := st.appliedRules ++ [cr.rule.id] }
  | none => st

/-- Redact text using the provided rules; mirrors `redact` of `redactor.ts`
(`!text` is the JavaScript falsiness test, true exactly on the empty
string). -/
def redact (text : List Char) (rules : List Rule) : RedactionResult :=
  if text = [] ∨ rules = [] then { text := text, appliedRules := [] }
  else
    let enabledRules := rules.filter (fun r => r.enabled)
    let compiledRules := enabledRules.map compileRule
    (jsSort redactCmp compiledRules).foldl applyCompiled
      { text := text, appliedRules := [] }

/-- Loop body of `unredact`: replace every occurrence of the rule's
placeholder (escaped, compiled case-sensitively with only the `g` flag) by
the rule's original.  The `none` branch is unreachable because escaping
always yields a compilable pattern. -/
def applyUnredact (s : List Char) (cr : CompiledRule) : List Char :=
  match newRegExp (escapeRegExp cr.rule.placeholder) false with
  | some placeholderRegex => replaceAll placeholderRegex cr.rule.original s
  | none => s

/-- Un-redact text by reversing the placeholders back to originals; mirrors
`unredact` of `redactor.ts`. -/
def unredact (text : List Char) (rules : List Rule) : List Char :=
  if text = [] ∨ rules = [] then text
  else
    let enabledRules := rules.filter (fun r => r.enabled)
    let compiledRules := enabledRules.map compileRule
    (jsSort unredactCmp compiledRules).foldl applyUnredact text

/-- Kind rank of a rule as the spec words it: literal/exact ranks above
pattern/regex.  Modelled from the spec for comparison with the code. -/
def kindRank (r : Rule) : Int :=
  match r.type with
  | RuleType.exact => 2
  | RuleType.regex => 1

/-- Comparator realising the ordering claimed by the spec for `redact`:
kind rank descending, then the rule's own `priority` field ascending within
the same kind.  Modelled from the spec's words for comparison. -/
def claimRedactCmp (a b : Rule) : Int :=
  if kindRank a ≠ kindRank b then kindRank b - kindRank a
  else a.priority - b.priority

/-- Comparator realising the ordering claimed by the spec for `unredact`:
kind rank ascending (pattern before literal), then the rule's own `priority`
field descending within the same kind.  Modelled from the spec's words. -/
def claimUnredactCmp (a b : Rule) : Int :=
  if kindRank a ≠ kindRank b then kindRank a - kindRank b
  else b.priority - a.priority

/-- Redaction as the claim describes its rule order: enabled rules sorted by
kind rank descending, then own `priority` ascending, and applied in that
order.  Modelled from the spec's words for comparison with `redact`. -/
def redactByClaimOrder (text : List Char) (rules : List Rule) : RedactionResult :=
  if text = [] ∨ rules = [] then { text := text, appliedRules := [] }
  else
    ((jsSort claimRedactCmp (rules.filter (fun r => r.enabled))).map compileRule).foldl
      applyCompiled { text := text, appliedRules := [] }

/-- Un-redaction as the claim describes its rule order: enabled rules sorted
by kind rank ascending, then own `priority` descending, and applied in that
order.  Modelled from the spec's words for comparison with `unredact`. -/
def unredactByClaimOrder (text : List Char) (rules : List Rule) : List Char :=
  if text = [] ∨ rules = [] then text
  else
    ((jsSort claimUnredactCmp (rules.filter (fun r => r.enabled))).map compileRule).foldl
      applyUnredact text

/-- Worker loop of `replaceAllVerbatim`, fuelled like `raGo`. -/
def vrGo (pat repl : List Char) : Nat → List Char → List Char
  | 0, _ => []
  | fuel + 1, s =>
      if pat = [] then
        match s with
        | [] => repl
        | c :: cs => repl ++ c :: vrGo pat repl fuel cs
      else
        match s with
        | [] => []
        | c :: cs =>
            if pat <+: (c :: cs) then
              repl ++ vrGo pat repl fuel ((c :: cs).drop pat.length)
            else c :: vrGo pat repl fuel cs

/-- Verbatim global replace-all, as the spec words the substitution step:
each match of the literal `pat` is replaced by `repl` exactly as written,
character for character.  Modelled from the spec for comparison with the
code's `replaceAll` (which expands dollar patterns). -/
def replaceAllVerbatim (pat repl s : List Char) : List Char :=
  vrGo pat repl (s.length + 1) s

/-- Result of replacing the empty pattern globally: `o` inserted at every
character boundary of the text. -/
def insertEverywhere (o : List Char) : List Char → List Char
  | [] => o
  | c :: s => o ++ c :: insertEverywhere o s

/-- State of one `EditableFieldHandler` instance together with the logical
text of the editable surface it wraps: `fieldText` models
`getEditorText()` / the textarea value, and the two skip flags mirror the
private fields of the class. -/
structure BinderState where
  fieldText : List Char
  skipNextInput : Bool
  skipNextRedaction : Bool
deriving DecidableEq, Repr

/-- Outcome of one run of the `input` handler. -/
inductive InputOutcome where
  | suppressed : InputOutcome
  | disabledSkip : InputOutcome
  | unchanged : InputOutcome
  | rewrote : InputOutcome
deriving DecidableEq, Repr

/-- Outcome of one run of the `paste` handler. -/
inductive PasteOutcome where
  | disabledSkip : PasteOutcome
  | emptySkip : PasteOutcome
  | defaultPaste : PasteOutcome
  | redactedInsert : PasteOutcome
deriving DecidableEq, Repr

/-- One run of `EditableFieldHandler.handleInput`, from `utils.ts`: consume
`skipNextInput`, else consume `skipNextRedaction`, else redact the current
text; when a rule applied, `updateContent` writes the redacted text,
restores the caret, and dispatches a synthetic `input` event — without
setting either skip flag.  The outcome `rewrote` marks that dispatch; the
caller models the synthetic event as the next `handleInput` invocation. -/
def handleInput (rules : List Rule) (isEnabled : Bool) (b : BinderState) :
    BinderState × InputOutcome :=
  if b.skipNextInput then
    ({ b with skipNextInput := false }, InputOutcome.suppressed)
  else if b.skipNextRedaction then
    ({ b with skipNextRedaction := false }, InputOutcome.suppressed)
  else if !isEnabled || rules = [] then (b, InputOutcome.disabledSkip)
  else
    let result := redact b.fieldText rules
    if result.appliedRules = [] then (b, InputOutcome.unchanged)
    else ({ b with fieldText := result.text }, InputOutcome.rewrote)

/-- One run of `EditableFieldHandler.handlePaste` on a textarea whose value
is `beforeSel ++ selected ++ afterSel` (the selection being replaced by the
paste): when a rule applies to the pasted text, the default insertion is
prevented, the redacted text is spliced in, BOTH `skipNextInput` and
`skipNextRedaction` are set, and one synthetic `input` event is dispatched
(outcome `redactedInsert`). -/
def handlePaste (rules : List Rule) (isEnabled : Bool)
    (beforeSel afterSel pasted : List Char) (b : BinderState) :
    BinderState × PasteOutcome :=
  if !isEnabled || rules = [] then (b, PasteOutcome.disabledSkip)
  else if pasted = [] then (b, PasteOutcome.emptySkip)
  else
    let result := redact pasted rules
    if result.appliedRules = [] then (b, PasteOutcome.defaultPaste)
    else
      ({ fieldText := beforeSel ++ result.text ++ afterSel,
         skipNextInput := true, skipNextRedaction := true },
       PasteOutcome.redactedInsert)

/-- HTML fragment node, for the clipboard's `text/html` pipeline. -/
inductive HtmlNode where
  | textNode : List Char → HtmlNode
  | element : List Char → List HtmlNode → HtmlNode

mutual

/-- Serialisation of a node, modelling `innerHTML` (text escaping elided). -/
def renderHtml : HtmlNode → List Char
  | HtmlNode.textNode s => s
  | HtmlNode.element tag children =>
      '<' :: (tag ++ ['>']) ++ renderHtmlList children ++
        ('<' :: '/' :: (tag ++ ['>']))

/-- Serialisation of a fragment (list of sibling nodes). -/
def renderHtmlList : List HtmlNode → List Char
  | [] => []
  | n :: ns => renderHtml n ++ renderHtmlList ns

end

mutual

/-- The recursive `processNode` of `unredactHTML`: un-redact every non-empty
text node, recurse into elements. -/
def processNode (rules : List Rule) : HtmlNode → HtmlNode
  | HtmlNode.textNode s =>
      if s = [] then HtmlNode.textNode s
      else HtmlNode.textNode (unredact s rules)
  | HtmlNode.element tag children =>
      HtmlNode.element tag (processNodeList rules children)

/-- The walker applied to a fragment's sibling nodes. -/
def processNodeList (rules : List Rule) : List HtmlNode → List HtmlNode
  | [] => []
  | n :: ns => processNode rules n :: processNodeList rules ns

end

/-- The selection at the moment of a copy event: its `toString()` text and
the outcome of building the HTML fragment from `getRangeAt(0)` /
`cloneContents()` (an `Except.error` models an exception thrown inside the
try block). -/
structure SelectionModel where
  text : List Char
  rangeContent : Except Unit (List HtmlNode)

/-- A copy event as the listener observes it. -/
structure CopyEventModel where
  inContainer : Bool
  selection : Option SelectionModel
  clipboardDataPresent : Bool

/-- The externally visible effect of the listener on the event. -/
structure ClipboardResult where
  defaultPrevented : Bool
  plainData : Option (List Char)
  htmlData : Option (List Char)
deriving DecidableEq, Repr

/-- A copy event the listener left untouched. -/
def untouchedEvent : ClipboardResult :=
  { defaultPrevented := false, plainData := none, htmlData := none }

/-- Model of the closure returned by `createClipboardListener` in
`clipboard.ts`.  `containerRequired` models a supplied `containerSelector`;
the DOM string-parse round trip of `unredactHTML` (`innerHTML` in, walked,
`innerHTML` out) is modelled directly on the fragment nodes. -/
def createClipboardListener (rules : List Rule) (containerRequired : Bool)
    (e : CopyEventModel) : ClipboardResult :=
  if containerRequired && !e.inContainer then untouchedEvent
  else
    match e.selection with
    | none => untouchedEvent
    | some sel =>
        if sel.text = [] then untouchedEvent
        else
          let unredactedText := unredact sel.text rules
          if unredactedText ≠ sel.text ∧ e.clipboardDataPresent = true then
            match sel.rangeContent with
            | Except.error _ =>
                { defaultPrevented := true, plainData := some unredactedText,
                  htmlData := none }
            | Except.ok frag =>
                let htmlContent := renderHtmlList frag
                if htmlContent = [] then
                  { defaultPrevented := true, plainData := some unredactedText,
                    htmlData := none }
                else
                  { defaultPrevented := true, plainData := some unredactedText,
                    htmlData := some (renderHtmlList (processNodeList rules frag)) }
          else untouchedEvent

/-- Convenience constructor for concrete rules in examples: timestamps are
irrelevant to the engine and left empty. -/
def mkRule (i o p : List Char) (ty : RuleType) (en cs : Bool) (pr : Int) : Rule :=
  { id := i, original := o, placeholder := p, type := ty, enabled := en,
    caseSensitive := cs, priority := pr, createdAt := [], updatedAt := [] }

/-- Forward fold of verbatim replacements over (match, replacement) pairs:
the shape `redact` takes on enabled exact case-sensitive rules. -/
def redactFoldV (ps : List (List Char × List Char)) (t : List Char) : List Char :=
  ps.foldl (fun s op => replaceAllVerbatim op.1 op.2 s) t

/-- Backward fold of verbatim replacements (replacement back to match): the
shape `unredact` takes on enabled exact rules. -/
def unredactFoldV (ps : List (List Char × List Char)) (t : List Char) : List Char :=
  ps.foldl (fun s op => replaceAllVerbatim op.2 op.1 s) t

/-- The (match, replacement) pairs of the enabled rules, in list order. -/
def rulePairs (rules : List Rule) : List (List Char × List Char) :=
  (rules.filter (fun r => r.enabled)).map (fun r => (r.original, r.placeholder))

lemma isMeta_backslash : isMeta '\\' = true := by decide

lemma parseLit_escapeRegExp (s : List Char) : parseLit (escapeRegExp s) = some s := by
  induction s with
  | nil => rfl
  | cons c rest ih =>
      by_cases hm : isMeta c
      · simp [escapeRegExp, hm, parseLit, ih]
      · have hcb : c ≠ '\\' := by
          intro h
          rw [h] at hm
          exact hm isMeta_backslash
        have he : escapeRegExp (c :: rest) = c :: escapeRegExp rest := by
          simp [escapeRegExp, hm]
        rw [he, parseLit.eq_def]
        simp [hcb, hm, ih]

lemma newRegExp_escapeRegExp (s : List Char) (ic : Bool) :
    newRegExp (escapeRegExp s) ic = some (Matcher.mk s ic) := by
  simp [newRegExp, parseLit_escapeRegExp]

lemma compileRule_of_exact (r : Rule) (h : r.type = RuleType.exact) :
    compileRule r =
      { rule := r, regex := some (Matcher.mk r.original (!r.caseSensitive)),
        priority := 2 } := by
  simp [compileRule, h, newRegExp_escapeRegExp]

lemma compileRule_rule (r : Rule) : (compileRule r).rule = r := by
  unfold compileRule
  cases h : r.type
  · simp
  · cases hn : newRegExp r.original (!r.caseSensitive) <;> simp

lemma compileRule_priority_exact (r : Rule) (h : r.type = RuleType.exact) :
    (compileRule r).priority = 2 := by
  simp [compileRule, h]

lemma compileRule_priority_regex (r : Rule) (h : r.type = RuleType.regex) :
    (compileRule r).priority = 1 := by
  unfold compileRule
  rw [h]
  cases hn : newRegExp r.original (!r.caseSensitive) <;> simp

lemma compileRule_regex_isSome (r : Rule) : (compileRule r).regex.isSome = true := by
  unfold compileRule
  cases h : r.type
  · simp [newRegExp_escapeRegExp]
  · cases hn : newRegExp r.original (!r.caseSensitive) <;>
      simp [hn, newRegExp_escapeRegExp]

/-- C6.  For every pattern-kind rule whose match string fails to compile as a
regular expression (`newRegExp … = none` models the thrown `SyntaxError`),
`compileRule` does not propagate the failure: it falls back to a matcher for
the escaped literal text of the match string.  Moreover every compiled rule
carries a matcher (`regex` is never `undefined`), and the placeholder
patterns `unredact` builds by escaping always compile, so neither `redact`
nor `unredact` can raise a compilation exception on any rule list. -/
theorem compileRule_never_throws (r : Rule) :
    (compileRule r).regex.isSome = true ∧
    (r.type = RuleType.regex → newRegExp r.original (!r.caseSensitive) = none →
      (compileRule r).regex = some (Matcher.mk r.original (!r.caseSensitive))) ∧
    (∀ p : List Char, (newRegExp (escapeRegExp p) false).isSome = true) := by
  refine ⟨compileRule_regex_isSome r, ?_, ?_⟩
  · intro hty hn
    simp [compileRule, hty, hn, newRegExp_escapeRegExp]
  · intro p
    simp [newRegExp_escapeRegExp]

/-- Witness for C6 at a concrete invalid pattern: the single character `(`
is rejected by the pattern compiler, and the compiled rule falls back to a
literal matcher for the text `(`. -/
theorem compileRule_never_throws_witness :
    newRegExp ['('] true = none ∧
    (compileRule (mkRule ['r'] ['('] ['X'] RuleType.regex true false 0)).regex =
      some (Matcher.mk ['('] true) :=
  ⟨by decide,
   (compileRule_never_throws
      (mkRule ['r'] ['('] ['X'] RuleType.regex true false 0)).2.1 rfl (by decide)⟩

lemma jsInsert_redactCmp_two (x : CompiledRule) (l : List CompiledRule)
    (hx : x.priority = 2) (hl : ∀ y ∈ l, y.priority = 1 ∨ y.priority = 2) :
    jsInsert redactCmp x l = x :: l := by
  cases l with
  | nil => rfl
  | cons y ys =>
      have hy := hl y (List.mem_cons_self y ys)
      have : redactCmp x y ≤ 0 := by
        rcases hy with h | h <;> simp [redactCmp, hx, h]
      simp [jsInsert, this]

lemma jsInsert_redactCmp_one (x : CompiledRule) (A B : List CompiledRule)
    (hx : x.priority = 1) (hA : ∀ y ∈ A, y.priority = 2)
    (hB : ∀ y ∈ B, y.priority = 1) :
    jsInsert redactCmp x (A ++ B) = A ++ x :: B := by
  induction A with
  | nil =>
      cases B with
      | nil => rfl
      | cons b bs =>
          have hb := hB b (List.mem_cons_self b bs)
          have : redactCmp x b ≤ 0 := by simp [redactCmp, hx, hb]
          simp [jsInsert, this]
  | cons a as ih =>
      have ha := hA a (List.mem_cons_self a as)
      have hgt : ¬ redactCmp x a ≤ 0 := by simp [redactCmp, hx, ha]
      have ih' := ih (fun y hy => hA y (List.mem_cons_of_mem a hy))
      simp [jsInsert, hgt, ih']

lemma jsSort_redactCmp (l : List CompiledRule)
    (h : ∀ y ∈ l, y.priority = 1 ∨ y.priority = 2) :
    jsSort redactCmp l =
      l.filter (fun cr => cr.priority == 2) ++ l.filter (fun cr => cr.priority == 1) := by
  induction l with
  | nil => rfl
  | cons x xs ih =>
      have hxs : ∀ y ∈ xs, y.priority = 1 ∨ y.priority = 2 :=
        fun y hy => h y (List.mem_cons_of_mem x hy)
      have ih' := ih hxs
      have hmem2 : ∀ y ∈ xs.filter (fun cr => cr.priority == 2), y.priority = 2 := by
        intro y hy
        have := List.of_mem_filter hy
        simpa using this
      have hmem1 : ∀ y ∈ xs.filter (fun cr => cr.priority == 1), y.priority = 1 := by
        intro y hy
        have := List.of_mem_filter hy
        simpa using this
      rcases h x (List.mem_cons_self x xs) with hx | hx
      · have hins := jsInsert_redactCmp_one x
          (xs.filter (fun cr => cr.priority == 2))
          (xs.filter (fun cr => cr.priority == 1)) hx hmem2 hmem1
        simp [jsSort, ih', hins, List.filter_cons, hx]
      · have hall : ∀ y ∈ xs.filter (fun cr => cr.priority == 2) ++
            xs.filter (fun cr => cr.priority == 1), y.priority = 1 ∨ y.priority = 2 := by
          intro y hy
          rcases List.mem_append.mp hy with hy | hy
          · exact Or.inr (hmem2 y hy)
          · exact Or.inl (hmem1 y hy)
        have hins := jsInsert_redactCmp_two x _ hx hall
        simp [jsSort, ih', hins, List.filter_cons, hx]

lemma jsInsert_unredactCmp_one (x : CompiledRule) (l : List CompiledRule)
    (hx : x.priority = 1) (hl : ∀ y ∈ l, y.priority = 1 ∨ y.priority = 2) :
    jsInsert unredactCmp x l = x :: l := by
  cases l with
  | nil => rfl
  | cons y ys =>
      have hy := hl y (List.mem_cons_self y ys)
      have : unredactCmp x y ≤ 0 := by
        rcases hy with h | h <;> simp [unredactCmp, hx, h]
      simp [jsInsert, this]

lemma jsInsert_unredactCmp_two (x : CompiledRule) (A B : List CompiledRule)
    (hx : x.priority = 2) (hA : ∀ y ∈ A, y.priority = 1)
    (hB : ∀ y ∈ B, y.priority = 2) :
    jsInsert unredactCmp x (A ++ B) = A ++ x :: B := by
  induction A with
  | nil =>
      cases B with
      | nil => rfl
      | cons b bs =>
          have hb := hB b (List.mem_cons_self b bs)
          have : unredactCmp x b ≤ 0 := by simp [unredactCmp, hx, hb]
          simp [jsInsert, this]
  | cons a as ih =>
      have ha := hA a (List.mem_cons_self a as)
      have hgt : ¬ unredactCmp x a ≤ 0 := by simp [unredactCmp, hx, ha]
      have ih' := ih (fun y hy => hA y (List.mem_cons_of_mem a hy))
      simp [jsInsert, hgt, ih']

lemma jsSort_unredactCmp (l : List CompiledRule)
    (h : ∀ y ∈ l, y.priority = 1 ∨ y.priority = 2) :
    jsSort unredactCmp l =
      l.filter (fun cr => cr.priority == 1) ++ l.filter (fun cr => cr.priority == 2) := by
  induction l with
  | nil => rfl
  | cons x xs ih =>
      have hxs : ∀ y ∈ xs, y.priority = 1 ∨ y.priority = 2 :=
        fun y hy => h y (List.mem_cons_of_mem x hy)
      have ih' := ih hxs
      have hmem2 : ∀ y ∈ xs.filter (fun cr => cr.priority == 2), y.priority = 2 := by
        intro y hy
        have := List.of_mem_filter hy
        simpa using this
      have hmem1 : ∀ y ∈ xs.filter (fun cr => cr.priority == 1), y.priority = 1 := by
        intro y hy
        have := List.of_mem_filter hy
        simpa using this
      rcases h x (List.mem_cons_self x xs) with hx | hx
      · have hall : ∀ y ∈ xs.filter (fun cr => cr.priority == 1) ++
            xs.filter (fun cr => cr.priority == 2), y.priority = 1 ∨ y.priority = 2 := by
          intro y hy
          rcases List.mem_append.mp hy with hy | hy
          · exact Or.inl (hmem1 y hy)
          · exact Or.inr (hmem2 y hy)
        have hins := jsInsert_unredactCmp_one x _ hx hall
        simp [jsSort, ih', hins, List.filter_cons, hx]
      · have hins := jsInsert_unredactCmp_two x
          (xs.filter (fun cr => cr.priority == 1))
          (xs.filter (fun cr => cr.priority == 2)) hx hmem1 hmem2
        simp [jsSort, ih', hins, List.filter_cons, hx]

lemma compile_priorities (rules : List Rule) :
    ∀ y ∈ rules.map compileRule, y.priority = 1 ∨ y.priority = 2 := by
  intro y hy
  rcases List.mem_map.mp hy with ⟨r, _, rfl⟩
  cases h : r.type
  · exact Or.inr (compileRule_priority_exact r h)
  · exact Or.inl (compileRule_priority_regex r h)

lemma filter_map_compile_exact (rules : List Rule) :
    (rules.map compileRule).filter (fun cr => cr.priority == 2) =
      (rules.filter (fun r => r.type == RuleType.exact)).map compileRule := by
  induction rules with
  | nil => rfl
  | cons r rs ih =>
      cases h : r.type
      · have h2 := compileRule_priority_exact r h
        simp [List.filter_cons, h2, h, ih]
      · have h1 := compileRule_priority_regex r h
        simp [List.filter_cons, h1, h, ih]

lemma filter_map_compile_regex (rules : List Rule) :
    (rules.map compileRule).filter (fun cr => cr.priority == 1) =
      (rules.filter (fun r => r.type == RuleType.regex)).map compileRule := by
  induction rules with
  | nil => rfl
  | cons r rs ih =>
      cases h : r.type
      · have h2 := compileRule_priority_exact r h
        simp [List.filter_cons, h2, h, ih]
      · have h1 := compileRule_priority_regex r h
        simp [List.filter_cons, h1, h, ih]

lemma redact_eq_of_ne (text : List Char) (rules : List Rule)
    (h : ¬ (text = [] ∨ rules = [])) :
    redact text rules =
      (jsSort redactCmp ((rules.filter (fun r => r.enabled)).map compileRule)).foldl
        applyCompiled { text := text, appliedRules := [] } := by
  unfold redact
  rw [if_neg h]

lemma unredact_eq_of_ne (text : List Char) (rules : List Rule)
    (h : ¬ (text = [] ∨ rules = [])) :
    unredact text rules =
      (jsSort unredactCmp ((rules.filter (fun r => r.enabled)).map compileRule)).foldl
        applyUnredact text := by
  unfold unredact
  rw [if_neg h]

/-- C1 (amended).  `redact` applies the enabled compiled rules with all
exact (literal) rules before all regex (pattern) rules; within the same
kind, rules are applied in the order they appear in the supplied rule list.
The rule's own `priority` field plays no role: `compileRule` shadows it with
the kind rank, so only the stable sort's preservation of list order decides
ties within a kind. -/
theorem redact_order_exact_first (text : List Char) (rules : List Rule)
    (htext : text ≠ []) :
    redact text rules =
      (((rules.filter (fun r => r.enabled && r.type == RuleType.exact)).map compileRule) ++
       ((rules.filter (fun r => r.enabled && r.type == RuleType.regex)).map compileRule)).foldl
        applyCompiled { text := text, appliedRules := [] } := by
  by_cases hr : rules = []
  · subst hr
    simp [redact]
  · have hcond : ¬ (text = [] ∨ rules = []) := by
      push_neg
      exact ⟨htext, hr⟩
    rw [redact_eq_of_ne text rules hcond,
      jsSort_redactCmp _ (compile_priorities _),
      filter_map_compile_exact, filter_map_compile_regex,
      List.filter_filter, List.filter_filter]
    have e1 : rules.filter (fun r => (r.type == RuleType.exact) && r.enabled) =
        rules.filter (fun r => r.enabled && (r.type == RuleType.exact)) :=
      List.filter_congr (fun a _ => by rw [Bool.and_comm])
    have e2 : rules.filter (fun r => (r.type == RuleType.regex) && r.enabled) =
        rules.filter (fun r => r.enabled && (r.type == RuleType.regex)) :=
      List.filter_congr (fun a _ => by rw [Bool.and_comm])
    rw [e1, e2]

/-- Witness for C1's amended theorem at a concrete input. -/
theorem redact_order_exact_first_witness :
    redact "ab".toList
        [mkRule ['A'] "ab".toList "X".toList RuleType.exact true true 5,
         mkRule ['B'] "a".toList "Y".toList RuleType.exact true true 1] =
      ((([mkRule ['A'] "ab".toList "X".toList RuleType.exact true true 5,
          mkRule ['B'] "a".toList "Y".toList RuleType.exact true true 1].filter
            (fun r => r.enabled && r.type == RuleType.exact)).map compileRule) ++
       (([mkRule ['A'] "ab".toList "X".toList RuleType.exact true true 5,
          mkRule ['B'] "a".toList "Y".toList RuleType.exact true true 1].filter
            (fun r => r.enabled && r.type == RuleType.regex)).map compileRule)).foldl
        applyCompiled { text := "ab".toList, appliedRules := [] } :=
  redact_order_exact_first "ab".toList _ (by decide)

/-- Counterexample to C1 as stated: two enabled exact rules whose own
`priority` fields order them B (priority 1) before A (priority 5).  The
claimed order would apply B first and produce `Yb`; `redact` applies them in
list order and produces `X`, because `compileRule` overwrites the priority
field with the kind rank. -/
theorem redact_priority_counterexample :
    (redact "ab".toList
        [mkRule ['A'] "ab".toList "X".toList RuleType.exact true true 5,
         mkRule ['B'] "a".toList "Y".toList RuleType.exact true true 1]).text =
      "X".toList ∧
    (redactByClaimOrder "ab".toList
        [mkRule ['A'] "ab".toList "X".toList RuleType.exact true true 5,
         mkRule ['B'] "a".toList "Y".toList RuleType.exact true true 1]).text =
      "Yb".toList ∧
    (redact "ab".toList
        [mkRule ['A'] "ab".toList "X".toList RuleType.exact true true 5,
         mkRule ['B'] "a".toList "Y".toList RuleType.exact true true 1]).text ≠
      (redactByClaimOrder "ab".toList
        [mkRule ['A'] "ab".toList "X".toList RuleType.exact true true 5,
         mkRule ['B'] "a".toList "Y".toList RuleType.exact true true 1]).text := by
  decide

/-- C2 (amended).  `unredact` applies the enabled rules with all regex
(pattern) rules before all exact (literal) rules; within the same kind,
rules are applied in the order they appear in the supplied rule list.  As
in `redact`, the rule's own `priority` field plays no role. -/
theorem unredact_order_regex_first (text : List Char) (rules : List Rule)
    (htext : text ≠ []) :
    unredact text rules =
      (((rules.filter (fun r => r.enabled && r.type == RuleType.regex)).map compileRule) ++
       ((rules.filter (fun r => r.enabled && r.type == RuleType.exact)).map compileRule)).foldl
        applyUnredact text := by
  by_cases hr : rules = []
  · subst hr
    simp [unredact]
  · have hcond : ¬ (text = [] ∨ rules = []) := by
      push_neg
      exact ⟨htext, hr⟩
    rw [unredact_eq_of_ne text rules hcond,
      jsSort_unredactCmp _ (compile_priorities _),
      filter_map_compile_regex, filter_map_compile_exact,
      List.filter_filter, List.filter_filter]
    have e1 : rules.filter (fun r => (r.type == RuleType.exact) && r.enabled) =
        rules.filter (fun r => r.enabled && (r.type == RuleType.exact)) :=
      List.filter_congr (fun a _ => by rw [Bool.and_comm])
    have e2 : rules.filter (fun r => (r.type == RuleType.regex) && r.enabled) =
        rules.filter (fun r => r.enabled && (r.type == RuleType.regex)) :=
      List.filter_congr (fun a _ => by rw [Bool.and_comm])
    rw [e1, e2]

/-- Witness for C2's amended theorem at a concrete input. -/
theorem unredact_order_regex_first_witness :
    unredact "ab".toList
        [mkRule ['A'] "P".toList "ab".toList RuleType.exact true true 1,
         mkRule ['B'] "Q".toList "a".toList RuleType.exact true true 9] =
      ((([mkRule ['A'] "P".toList "ab".toList RuleType.exact true true 1,
          mkRule ['B'] "Q".toList "a".toList RuleType.exact true true 9].filter
            (fun r => r.enabled && r.type == RuleType.regex)).map compileRule) ++
       (([mkRule ['A'] "P".toList "ab".toList RuleType.exact true true 1,
          mkRule ['B'] "Q".toList "a".toList RuleType.exact true true 9].filter
            (fun r => r.enabled && r.type == RuleType.exact)).map compileRule)).foldl
        applyUnredact "ab".toList :=
  unredact_order_regex_first "ab".toList _ (by decide)

/-- Counterexample to C2 as stated: two enabled exact rules whose own
`priority` fields would order B (priority 9) before A (priority 1) under the
claimed descending-priority order, restoring `a` first and producing `Qb`;
`unredact` applies them in list order and produces `P`. -/
theorem unredact_priority_counterexample :
    unredact "ab".toList
        [mkRule ['A'] "P".toList "ab".toList RuleType.exact true true 1,
         mkRule ['B'] "Q".toList "a".toList RuleType.exact true true 9] =
      "P".toList ∧
    unredactByClaimOrder "ab".toList
        [mkRule ['A'] "P".toList "ab".toList RuleType.exact true true 1,
         mkRule ['B'] "Q".toList "a".toList RuleType.exact true true 9] =
      "Qb".toList ∧
    unredact "ab".toList
        [mkRule ['A'] "P".toList "ab".toList RuleType.exact true true 1,
         mkRule ['B'] "Q".toList "a".toList RuleType.exact true true 9] ≠
      unredactByClaimOrder "ab".toList
        [mkRule ['A'] "P".toList "ab".toList RuleType.exact true true 1,
         mkRule ['B'] "Q".toList "a".toList RuleType.exact true true 9] := by
  decide

lemma matchPre_some {ic : Bool} :
    ∀ {pat s m r : List Char}, matchPre ic pat s = some (m, r) →
      s = m ++ r ∧ m.length = pat.length := by
  intro pat
  induction pat with
  | nil =>
      intro s m r h
      simp [matchPre] at h
      simp [h.1, h.2]
  | cons p ps ih =>
      intro s m r h
      cases s with
      | nil => simp [matchPre] at h
      | cons c cs =>
          by_cases he : jsCharEq ic p c = true
          · simp [matchPre, he] at h
            rcases h with ⟨m', hrec, hm⟩
            rcases ih hrec with ⟨hs, hl⟩
            subst hm
            simp [hs, hl]
          · simp [matchPre, he] at h

lemma jsCharEq_false_iff (p c : Char) : jsCharEq false p c = true ↔ p = c := by
  simp [jsCharEq]

lemma matchPre_false_some {pat s m r : List Char}
    (h : matchPre false pat s = some (m, r)) : m = pat ∧ s = pat ++ r := by
  induction pat generalizing s m r with
  | nil =>
      simp [matchPre] at h
      simp [h.1, h.2]
  | cons p ps ih =>
      cases s with
      | nil => simp [matchPre] at h
      | cons c cs =>
          by_cases he : jsCharEq false p c = true
          · have hpc : p = c := (jsCharEq_false_iff p c).mp he
            simp [matchPre, he] at h
            rcases h with ⟨m', hrec, hm⟩
            rcases ih hrec with ⟨hm', hs⟩
            subst hm
            subst hm'
            simp [hs, hpc]
          · simp [matchPre, he] at h

lemma matchPre_false_append (pat r : List Char) :
    matchPre false pat (pat ++ r) = some (pat, r) := by
  induction pat with
  | nil => simp [matchPre]
  | cons p ps ih =>
      have : jsCharEq false p p = true := (jsCharEq_false_iff p p).mpr rfl
      simp [matchPre, this, ih]

lemma matchPre_false_none {pat s : List Char}
    (h : matchPre false pat s = none) : ¬ pat <+: s := by
  intro hp
  rcases hp with ⟨t, ht⟩
  rw [← ht, matchPre_false_append] at h
  exact Option.noConfusion h

lemma matchPre_none_of_no_match {pat s : List Char}
    (h : ¬ pat <+: s) : matchPre false pat s = none := by
  cases hm : matchPre false pat s with
  | none => rfl
  | some pr =>
      obtain ⟨m, r⟩ := pr
      rcases matchPre_false_some hm with ⟨hmp, hs⟩
      exact absurd ⟨r, hs.symm⟩ h

lemma substRepl_noDollar {repl : List Char} (h : '$' ∉ repl)
    (matched before after : List Char) :
    substRepl matched before after repl = repl := by
  induction repl with
  | nil => rfl
  | cons c rest ih =>
      have hc : c ≠ '$' := fun hc => h (hc ▸ List.mem_cons_self c rest)
      have hrest : '$' ∉ rest := fun hr => h (List.mem_cons_of_mem c hr)
      rw [substRepl.eq_def]
      simp [hc, ih hrest]
lemma vrGo_succ (pat repl : List Char) (fuel : Nat) (s : List Char) :
    vrGo pat repl (fuel + 1) s =
      if pat = [] then
        match s with
        | [] => repl
        | c :: cs => repl ++ c :: vrGo pat repl fuel cs
      else
        match s with
        | [] => []
        | c :: cs =>
            if pat <+: (c :: cs) then
              repl ++ vrGo pat repl fuel ((c :: cs).drop pat.length)
            else c :: vrGo pat repl fuel cs := rfl

lemma raGo_succ (m : Matcher) (repl : List Char) (fuel : Nat) (done s : List Char) :
    raGo m repl (fuel + 1) done s =
      match matchPre m.ignoreCase m.pat s with
      | some (matched, rest) =>
          if matched.isEmpty then
            match s with
            | [] => substRepl matched done.reverse rest repl
            | c :: cs =>
                substRepl matched done.reverse rest repl ++
                  c :: raGo m repl fuel (c :: done) cs
          else
            substRepl matched done.reverse rest repl ++
              raGo m repl fuel (matched.reverse ++ done) rest
      | none =>
          match s with
          | [] => []
          | c :: cs => c :: raGo m repl fuel (c :: done) cs := rfl

lemma vrGo_fuel (pat repl : List Char) :
    ∀ (n : Nat) (s : List Char), s.length ≤ n →
      ∀ f1 f2, s.length < f1 → s.length < f2 →
        vrGo pat repl f1 s = vrGo pat repl f2 s := by
  intro n
  induction n with
  | zero =>
      intro s hs f1 f2 h1 h2
      have hnil : s = [] := List.eq_nil_of_length_eq_zero (Nat.le_zero.mp hs)
      subst hnil
      cases f1 with
      | zero => omega
      | succ a =>
          cases f2 with
          | zero => omega
          | succ b => rw [vrGo_succ, vrGo_succ]
  | succ n ih =>
      intro s hs f1 f2 h1 h2
      cases s with
      | nil =>
          cases f1 with
          | zero => omega
          | succ a =>
              cases f2 with
              | zero => omega
              | succ b => rw [vrGo_succ, vrGo_succ]
      | cons c cs =>
          cases f1 with
          | zero => omega
          | succ a =>
              cases f2 with
              | zero => omega
              | succ b =>
                  have hcs : cs.length ≤ n := by
                    simp at hs
                    omega
                  have hca : cs.length < a := by
                    simp at h1
                    omega
                  have hcb : cs.length < b := by
                    simp at h2
                    omega
                  rw [vrGo_succ, vrGo_succ]
                  by_cases hp : pat = []
                  · subst hp
                    simp [ih cs hcs a b hca hcb]
                  · by_cases hpre : pat <+: (c :: cs)
                    · have hplen : 1 ≤ pat.length := by
                        have := List.length_pos.mpr hp
                        omega
                      have hlen : ((c :: cs).drop pat.length).length ≤ cs.length := by
                        simp [List.length_drop]
                        omega
                      have hda : ((c :: cs).drop pat.length).length < a := by omega
                      have hdb : ((c :: cs).drop pat.length).length < b := by omega
                      simp [hp, hpre,
                        ih ((c :: cs).drop pat.length) (Nat.le_trans hlen hcs) a b hda hdb]
                    · simp [hp, hpre, ih cs hcs a b hca hcb]

lemma vr_nil (pat repl : List Char) :
    replaceAllVerbatim pat repl [] = if pat = [] then repl else [] := by
  by_cases hp : pat = [] <;> simp [replaceAllVerbatim, vrGo_succ, hp]

lemma vr_empty_pat (repl : List Char) (c : Char) (s : List Char) :
    replaceAllVerbatim [] repl (c :: s) = repl ++ c :: replaceAllVerbatim [] repl s := by
  simp [replaceAllVerbatim, vrGo_succ]

lemma vr_match (pat repl s : List Char) (hp : pat ≠ []) (hpre : pat <+: s) :
    replaceAllVerbatim pat repl s = repl ++ replaceAllVerbatim pat repl (s.drop pat.length) := by
  have hplen : 1 ≤ pat.length := by
    have := List.length_pos.mpr hp
    omega
  cases s with
  | nil =>
      rcases hpre with ⟨t, ht⟩
      cases pat with
      | nil => exact absurd rfl hp
      | cons _ _ => simp at ht
  | cons c cs =>
      have hlen : ((c :: cs).drop pat.length).length ≤ cs.length := by
        simp [List.length_drop]
        omega
      unfold replaceAllVerbatim
      rw [show (c :: cs).length + 1 = (cs.length + 1) + 1 by simp, vrGo_succ]
      simp [hp, hpre]
      have hdl : ((c :: cs).drop pat.length).length = cs.length + 1 - pat.length := by
        simp [List.length_drop]
      exact vrGo_fuel pat repl ((c :: cs).drop pat.length).length ((c :: cs).drop pat.length)
        (Nat.le_refl _) (cs.length + 1)
        (cs.length + 1 - pat.length + 1) (by omega) (by omega)

lemma vr_nomatch (pat repl : List Char) (c : Char) (s : List Char)
    (hp : pat ≠ []) (hpre : ¬ pat <+: (c :: s)) :
    replaceAllVerbatim pat repl (c :: s) = c :: replaceAllVerbatim pat repl s := by
  unfold replaceAllVerbatim
  rw [show (c :: s).length + 1 = (s.length + 1) + 1 by simp, vrGo_succ]
  simp [hp, hpre]

lemma raGo_eq_vrGo (pat repl : List Char) (hnd : '$' ∉ repl) :
    ∀ (f : Nat) (s done : List Char), s.length < f →
      raGo (Matcher.mk pat false) repl f done s = vrGo pat repl f s := by
  intro f
  induction f with
  | zero =>
      intro s done h
      omega
  | succ f ih =>
      intro s done h
      rw [raGo_succ, vrGo_succ]
      dsimp only
      by_cases hp : pat = []
      · subst hp
        rw [show matchPre false ([] : List Char) s = some ([], s) from rfl]
        cases s with
        | nil => simp [substRepl_noDollar hnd]
        | cons c cs =>
            have hcs : cs.length < f := by
              simp at h
              omega
            simp [substRepl_noDollar hnd, ih cs (c :: done) hcs]
      · cases hm : matchPre false pat s with
        | some pr =>
            obtain ⟨mm, r⟩ := pr
            obtain ⟨rfl, hs⟩ := matchPre_false_some hm
            subst hs
            have hplen : 1 ≤ mm.length := by
              have := List.length_pos.mpr hp
              omega
            have hrlen : r.length < f := by
              simp at h
              omega
            have hne : mm.isEmpty = false := by
              cases mm with
              | nil => exact absurd rfl hp
              | cons _ _ => rfl
            cases mm with
            | nil => exact absurd rfl hp
            | cons p ps =>
                have hpre : (p :: ps) <+: ((p :: ps) ++ r) := List.prefix_append _ _
                have hdrop : ((p :: ps) ++ r).drop (p :: ps).length = r :=
                  List.drop_left _ _
                simp only [List.cons_append] at hpre hdrop
                simp [hne, substRepl_noDollar hnd, hpre, hdrop]
                exact ih r (ps.reverse ++ p :: done) hrlen
        | none =>
            have hnp := matchPre_false_none hm
            cases s with
            | nil => simp [hp]
            | cons c cs =>
                have hcs : cs.length < f := by
                  simp at h
                  omega
                simp [hp, hnp, ih cs (c :: done) hcs]

lemma replaceAll_eq_verbatim (pat repl s : List Char) (hnd : '$' ∉ repl) :
    replaceAll (Matcher.mk pat false) repl s = replaceAllVerbatim pat repl s := by
  unfold replaceAll replaceAllVerbatim
  exact raGo_eq_vrGo pat repl hnd (s.length + 1) s [] (by omega)

lemma raGo_id (pat repl : List Char) (hp : pat ≠ []) :
    ∀ (f : Nat) (s done : List Char), s.length < f → ¬ pat <:+: s →
      raGo (Matcher.mk pat false) repl f done s = s := by
  intro f
  induction f with
  | zero =>
      intro s done h
      omega
  | succ f ih =>
      intro s done h hinf
      rw [raGo_succ]
      dsimp only
      have hnpre : ¬ pat <+: s := fun hpre => hinf hpre.isInfix
      rw [matchPre_none_of_no_match hnpre]
      cases s with
      | nil => rfl
      | cons c cs =>
          have hcs : cs.length < f := by
            simp at h
            omega
          have hinf' : ¬ pat <:+: cs := by
            intro hx
            exact hinf (List.infix_cons_iff.mpr (Or.inr hx))
          simp [ih cs (c :: done) hcs hinf']

lemma replaceAll_id_of_no_occurrence (pat repl s : List Char) (hp : pat ≠ [])
    (hinf : ¬ pat <:+: s) : replaceAll (Matcher.mk pat false) repl s = s := by
  unfold replaceAll
  exact raGo_id pat repl hp (s.length + 1) s [] (by omega) hinf

lemma vr_empty_eq_insertEverywhere (repl s : List Char) :
    replaceAllVerbatim [] repl s = insertEverywhere repl s := by
  induction s with
  | nil => simp [vr_nil, insertEverywhere]
  | cons c cs ih => simp [vr_empty_pat, insertEverywhere, ih]

lemma insertEverywhere_length (o t : List Char) :
    (insertEverywhere o t).length = o.length + t.length * (o.length + 1) := by
  induction t with
  | nil => simp [insertEverywhere]
  | cons c cs ih =>
      simp [insertEverywhere, ih]
      ring

lemma jsSort_singleton {α : Type} (cmp : α → α → Int) (x : α) :
    jsSort cmp [x] = [x] := rfl

lemma applyUnredact_eq (s : List Char) (cr : CompiledRule) :
    applyUnredact s cr =
      replaceAll (Matcher.mk cr.rule.placeholder false) cr.rule.original s := by
  simp [applyUnredact, newRegExp_escapeRegExp]

lemma unredact_single (r : Rule) (t : List Char) (hen : r.enabled = true)
    (ht : t ≠ []) :
    unredact t [r] =
      replaceAll (Matcher.mk r.placeholder false) r.original t := by
  have hcond : ¬ (t = [] ∨ ([r] : List Rule) = []) := by
    push_neg
    exact ⟨ht, by simp⟩
  rw [unredact_eq_of_ne t [r] hcond]
  simp [hen, jsSort_singleton, applyUnredact_eq, compileRule_rule]

/-- C9 (amended).  For an enabled rule whose placeholder is empty and whose
match text contains no `$`, `unredact` inserts the match text at every
character boundary of a non-empty input (the escaped empty placeholder
compiles to the empty pattern, which matches at every position); hence the
output differs from the input whenever the match text is non-empty. -/
theorem unredact_empty_placeholder (r : Rule) (t : List Char)
    (hen : r.enabled = true) (hpl : r.placeholder = []) (hnd : '$' ∉ r.original)
    (ht : t ≠ []) :
    unredact t [r] = insertEverywhere r.original t ∧
      (r.original ≠ [] → unredact t [r] ≠ t) := by
  have h1 : unredact t [r] = insertEverywhere r.original t := by
    rw [unredact_single r t hen ht, hpl,
      replaceAll_eq_verbatim [] r.original t hnd,
      vr_empty_eq_insertEverywhere]
  refine ⟨h1, ?_⟩
  intro ho heq
  rw [h1] at heq
  have hlen := congrArg List.length heq
  rw [insertEverywhere_length] at hlen
  have holen : 1 ≤ r.original.length := by
    have := List.length_pos.mpr ho
    omega
  have htlen : 1 ≤ t.length := by
    have := List.length_pos.mpr ht
    omega
  nlinarith [hlen, holen, htlen]

/-- Witness for C9's amended theorem at a concrete input. -/
theorem unredact_empty_placeholder_witness :
    unredact "ab".toList [mkRule ['A'] "XY".toList [] RuleType.exact true true 0] =
        insertEverywhere "XY".toList "ab".toList ∧
      unredact "ab".toList [mkRule ['A'] "XY".toList [] RuleType.exact true true 0] ≠
        "ab".toList := by
  have h := unredact_empty_placeholder
    (mkRule ['A'] "XY".toList [] RuleType.exact true true 0) "ab".toList
    rfl rfl (by decide) (by decide)
  exact ⟨h.1, h.2 (by decide)⟩

/-- Counterexample to C9 as stated: a rule whose match text is the dollar
pattern `$&`.  The match text is non-empty, the placeholder is empty, yet
`unredact` returns the input unchanged: the replacement template `$&`
expands to the matched text, which is empty at every empty-pattern match
position, so nothing is inserted. -/
theorem unredact_empty_placeholder_counterexample :
    (mkRule ['A'] "$&".toList [] RuleType.exact true true 0).original ≠ [] ∧
      unredact "a".toList [mkRule ['A'] "$&".toList [] RuleType.exact true true 0] =
        "a".toList := by
  decide

/-- C10.  `unredact` searches for a rule's placeholder case-sensitively even
when the rule's `caseSensitive` flag is false: the reverse pattern is built
with the `g` flag only.  If the placeholder does not occur in the text with
exact case, the text is returned unchanged, whatever other letter-case
variants of the placeholder it contains. -/
theorem unredact_reverse_case_sensitive (r : Rule) (t : List Char)
    (hcs : r.caseSensitive = false) (hen : r.enabled = true)
    (hpl : r.placeholder ≠ []) (hinf : ¬ r.placeholder <:+: t) :
    unredact t [r] = t := by
  by_cases ht : t = []
  · subst ht
    rfl
  · rw [unredact_single r t hen ht]
    exact replaceAll_id_of_no_occurrence r.placeholder r.original t hpl hinf

/-- Witness for C10 at a concrete input: the rule is case-insensitive with
placeholder `AB`, the text contains only the lower-case variant `ab`, and
`unredact` leaves it unchanged. -/
theorem unredact_reverse_case_sensitive_witness :
    unredact "ab".toList [mkRule ['A'] "q".toList "AB".toList RuleType.exact true false 0] =
      "ab".toList :=
  unredact_reverse_case_sensitive
    (mkRule ['A'] "q".toList "AB".toList RuleType.exact true false 0) "ab".toList
    rfl rfl (by decide) (by decide)

lemma applyCompiled_text (st : RedactionResult) (cr : CompiledRule) :
    (applyCompiled st cr).text =
      match cr.regex with
      | some m => replaceAll m cr.rule.placeholder st.text
      | none => st.text := by
  cases h : cr.regex with
  | none => simp [applyCompiled, h]
  | some m =>
      simp only [applyCompiled, h]
      split <;> rfl

lemma redact_single_text (r : Rule) (t : List Char) (hen : r.enabled = true)
    (hty : r.type = RuleType.exact) (ht : t ≠ []) :
    (redact t [r]).text =
      replaceAll (Matcher.mk r.original (!r.caseSensitive)) r.placeholder t := by
  have hcond : ¬ (t = [] ∨ ([r] : List Rule) = []) := by
    push_neg
    exact ⟨ht, by simp⟩
  rw [redact_eq_of_ne t [r] hcond]
  simp only [List.filter, hen, List.map, jsSort_singleton, List.foldl]
  rw [applyCompiled_text]
  rw [compileRule_of_exact r hty]

/-- C5 (amended).  The substitution is verbatim exactly when the inserted
string contains no `$`: for an enabled exact case-sensitive rule whose
placeholder is `$`-free, `redact` replaces every match of the rule's text
with the placeholder character for character; and for an enabled rule whose
match text is `$`-free, `unredact` replaces every literal occurrence of the
placeholder with the match text character for character.  (With a `$` in
the inserted string, JavaScript's replacement-template semantics apply
instead — see the counterexample.) -/
theorem substitution_verbatim_no_dollar (r : Rule) (t : List Char)
    (ht : t ≠ []) (hen : r.enabled = true) :
    (r.type = RuleType.exact → r.caseSensitive = true → '$' ∉ r.placeholder →
      (redact t [r]).text = replaceAllVerbatim r.original r.placeholder t) ∧
    ('$' ∉ r.original →
      unredact t [r] = replaceAllVerbatim r.placeholder r.original t) := by
  constructor
  · intro hty hcs hnd
    rw [redact_single_text r t hen hty ht, hcs]
    exact replaceAll_eq_verbatim r.original r.placeholder t hnd
  · intro hnd
    rw [unredact_single r t hen ht]
    exact replaceAll_eq_verbatim r.placeholder r.original t hnd

/-- Witness for C5's amended theorem at a concrete input. -/
theorem substitution_verbatim_no_dollar_witness :
    (redact "zab".toList [mkRule ['A'] "ab".toList "XY".toList RuleType.exact true true 0]).text =
        replaceAllVerbatim "ab".toList "XY".toList "zab".toList ∧
      unredact "zab".toList [mkRule ['A'] "ab".toList "XY".toList RuleType.exact true true 0] =
        replaceAllVerbatim "XY".toList "ab".toList "zab".toList := by
  have h := substitution_verbatim_no_dollar
    (mkRule ['A'] "ab".toList "XY".toList RuleType.exact true true 0) "zab".toList
    (by decide) rfl
  exact ⟨h.1 rfl rfl (by decide), h.2 (by decide)⟩

/-- Counterexample to C5 as stated: the rule replaces `a` by the two
characters `$$`, but `redact` writes a single `$` into the output — the
ECMAScript replacement template collapses `$$` to `$` — so the substituted
placeholder does not appear character for character (it does not appear in
the output at all), even though the rule is recorded as applied. -/
theorem substitution_dollar_counterexample :
    redact "a".toList [mkRule ['A'] "a".toList "$$".toList RuleType.exact true true 0] =
        RedactionResult.mk "$".toList [['A']] ∧
      ¬ "$$".toList <:+:
        (redact "a".toList
          [mkRule ['A'] "a".toList "$$".toList RuleType.exact true true 0]).text := by
  decide

lemma infix_of_append_disjoint {q u v : List Char} (hq : q ≠ [])
    (hdisj : ∀ c ∈ u, c ∉ q) (h : q <:+: u ++ v) : q <:+: v := by
  rcases h with ⟨s, t, hst⟩
  rw [List.append_assoc] at hst
  rcases List.append_eq_append_iff.mp hst with ⟨a', hu, hqt⟩ | ⟨c', _, hv⟩
  · cases a' with
    | nil =>
        simp at hqt
        exact ⟨[], t, by simp [hqt]⟩
    | cons x xs =>
        cases q with
        | nil => exact absurd rfl hq
        | cons q0 q' =>
            have hx : q0 = x := by
              simp [List.cons_append] at hqt
              exact hqt.1
            have hxu : x ∈ u := by
              rw [hu]
              exact List.mem_append.mpr (Or.inr (List.mem_cons_self x xs))
            have hnx := hdisj x hxu
            rw [← hx] at hnx
            exact absurd (List.mem_cons_self q0 q') hnx
  · exact ⟨c', t, by rw [hv, List.append_assoc]⟩

lemma vr_id_of_no_occurrence (pat repl : List Char) (hp : pat ≠ []) :
    ∀ s, ¬ pat <:+: s → replaceAllVerbatim pat repl s = s := by
  intro s
  induction s with
  | nil =>
      intro _
      rw [vr_nil]
      simp [hp]
  | cons c cs ih =>
      intro h
      have hnpre : ¬ pat <+: (c :: cs) := fun hx => h hx.isInfix
      rw [vr_nomatch pat repl c cs hp hnpre]
      have hcs : ¬ pat <:+: cs := fun hx => h (List.infix_cons_iff.mpr (Or.inr hx))
      rw [ih hcs]

lemma vr_chars (pat repl : List Char) :
    ∀ (n : Nat) (s : List Char), s.length ≤ n →
      ∀ c, c ∈ replaceAllVerbatim pat repl s → c ∈ s ∨ c ∈ repl := by
  intro n
  induction n with
  | zero =>
      intro s hs c hc
      have hnil : s = [] := List.eq_nil_of_length_eq_zero (Nat.le_zero.mp hs)
      subst hnil
      rw [vr_nil] at hc
      by_cases hp : pat = []
      · simp [hp] at hc
        exact Or.inr hc
      · simp [hp] at hc
  | succ n ih =>
      intro s hs c hc
      cases s with
      | nil =>
          rw [vr_nil] at hc
          by_cases hp : pat = []
          · simp [hp] at hc
            exact Or.inr hc
          · simp [hp] at hc
      | cons x xs =>
          have hxs : xs.length ≤ n := by
            simp at hs
            omega
          by_cases hp : pat = []
          · subst hp
            rw [vr_empty_pat] at hc
            rcases List.mem_append.mp hc with hr | hcons
            · exact Or.inr hr
            · rcases List.mem_cons.mp hcons with hcx | hrec
              · exact Or.inl (hcx ▸ List.mem_cons_self x xs)
              · rcases ih xs hxs c hrec with h1 | h2
                · exact Or.inl (List.mem_cons_of_mem x h1)
                · exact Or.inr h2
          · by_cases hpre : pat <+: (x :: xs)
            · rw [vr_match pat repl (x :: xs) hp hpre] at hc
              have hdlen : ((x :: xs).drop pat.length).length ≤ n := by
                have hplen : 1 ≤ pat.length := by
                  have := List.length_pos.mpr hp
                  omega
                simp [List.length_drop]
                omega
              rcases List.mem_append.mp hc with hr | hrec
              · exact Or.inr hr
              · rcases ih ((x :: xs).drop pat.length) hdlen c hrec with h1 | h2
                · exact Or.inl (List.mem_of_mem_drop h1)
                · exact Or.inr h2
            · rw [vr_nomatch pat repl x xs hp hpre] at hc
              rcases List.mem_cons.mp hc with hcx | hrec
              · exact Or.inl (hcx ▸ List.mem_cons_self x xs)
              · rcases ih xs hxs c hrec with h1 | h2
                · exact Or.inl (List.mem_cons_of_mem x h1)
                · exact Or.inr h2

lemma vr_ne_nil (pat repl s : List Char) (hr : repl ≠ []) (hs : s ≠ []) :
    replaceAllVerbatim pat repl s ≠ [] := by
  cases s with
  | nil => exact absurd rfl hs
  | cons c cs =>
      by_cases hp : pat = []
      · subst hp
        rw [vr_empty_pat]
        simp
      · by_cases hpre : pat <+: (c :: cs)
        · rw [vr_match pat repl (c :: cs) hp hpre]
          simp [hr]
        · rw [vr_nomatch pat repl c cs hp hpre]
          simp

lemma vr_skip_disjoint (pat repl : List Char) (hp : pat ≠ []) :
    ∀ (v w : List Char), (∀ c ∈ v, c ∉ pat) →
      replaceAllVerbatim pat repl (v ++ w) = v ++ replaceAllVerbatim pat repl w := by
  intro v
  induction v with
  | nil =>
      intro w _
      simp
  | cons c v' ih =>
      intro w hdisj
      have hnpre : ¬ pat <+: (c :: (v' ++ w)) := by
        intro hx
        cases pat with
        | nil => exact hp rfl
        | cons p0 ps =>
            rcases List.prefix_cons_iff.mp hx with h0 | ⟨t, hpt, _⟩
            · exact List.noConfusion h0
            · have hp0 : p0 = c := (List.cons.injEq p0 ps c t).mp hpt |>.1
              have hcv : c ∈ c :: v' := List.mem_cons_self c v'
              have := hdisj c hcv
              rw [← hp0] at this
              exact this (List.mem_cons_self p0 ps)
      rw [List.cons_append, vr_nomatch pat repl c (v' ++ w) hp hnpre,
        ih w (fun x hx => hdisj x (List.mem_cons_of_mem c hx))]
      rfl

lemma vr_prefix_extract (pat repl : List Char) (hp : pat ≠ []) (hr : repl ≠ []) :
    ∀ (n : Nat) (s : List Char), s.length ≤ n →
      ∀ pre, pre ≠ [] → pre <+: replaceAllVerbatim pat repl s →
        (∀ c ∈ pre, c ∉ repl) → pre <+: s := by
  intro n
  induction n with
  | zero =>
      intro s hs pre hpre hpfx _
      have hnil : s = [] := List.eq_nil_of_length_eq_zero (Nat.le_zero.mp hs)
      subst hnil
      rw [vr_nil] at hpfx
      simp [hp] at hpfx
      exact absurd hpfx hpre
  | succ n ih =>
      intro s hs pre hprene hpfx hdisj
      cases s with
      | nil =>
          rw [vr_nil] at hpfx
          simp [hp] at hpfx
          exact absurd hpfx hprene
      | cons x xs =>
          have hxs : xs.length ≤ n := by
            simp at hs
            omega
          by_cases hmat : pat <+: (x :: xs)
          · rw [vr_match pat repl (x :: xs) hp hmat] at hpfx
            cases repl with
            | nil => exact absurd rfl hr
            | cons r0 rs =>
                cases pre with
                | nil => exact absurd rfl hprene
                | cons e0 es =>
                    rw [List.cons_append] at hpfx
                    have he0 : e0 = r0 := (List.cons_prefix_cons.mp hpfx).1
                    have : e0 ∉ (r0 :: rs : List Char) :=
                      hdisj e0 (List.mem_cons_self e0 es)
                    rw [he0] at this
                    exact absurd (List.mem_cons_self r0 rs) this
          · rw [vr_nomatch pat repl x xs hp hmat] at hpfx
            cases pre with
            | nil => exact absurd rfl hprene
            | cons e0 es =>
                have he0 : e0 = x := (List.cons_prefix_cons.mp hpfx).1
                have hes : es <+: replaceAllVerbatim pat repl xs :=
                  (List.cons_prefix_cons.mp hpfx).2
                subst he0
                by_cases hesnil : es = []
                · subst hesnil
                  exact List.cons_prefix_cons.mpr ⟨rfl, List.nil_prefix⟩
                · have hes' : es <+: xs := ih xs hxs es hesnil hes
                    (fun c hc => hdisj c (List.mem_cons_of_mem e0 hc))
                  exact List.cons_prefix_cons.mpr ⟨rfl, hes'⟩

lemma vr_no_pat (pat repl : List Char) (hp : pat ≠ []) (hr : repl ≠ [])
    (hdisj : ∀ c ∈ repl, c ∉ pat) :
    ∀ (n : Nat) (s : List Char), s.length ≤ n →
      ¬ pat <:+: replaceAllVerbatim pat repl s := by
  intro n
  induction n with
  | zero =>
      intro s hs hinf
      have hnil : s = [] := List.eq_nil_of_length_eq_zero (Nat.le_zero.mp hs)
      subst hnil
      rw [vr_nil] at hinf
      simp [hp] at hinf
  | succ n ih =>
      intro s hs hinf
      cases s with
      | nil =>
          rw [vr_nil] at hinf
          simp [hp] at hinf
      | cons x xs =>
          have hxs : xs.length ≤ n := by
            simp at hs
            omega
          by_cases hmat : pat <+: (x :: xs)
          · rw [vr_match pat repl (x :: xs) hp hmat] at hinf
            have hplen : 1 ≤ pat.length := by
              have := List.length_pos.mpr hp
              omega
            have hdlen : ((x :: xs).drop pat.length).length ≤ n := by
              simp [List.length_drop]
              omega
            exact ih ((x :: xs).drop pat.length) hdlen
              (infix_of_append_disjoint hp hdisj hinf)
          · rw [vr_nomatch pat repl x xs hp hmat] at hinf
            rcases List.infix_cons_iff.mp hinf with hpfx | hrec
            · cases pat with
              | nil => exact hp rfl
              | cons p0 ps =>
                  have hp0 : p0 = x := (List.cons_prefix_cons.mp hpfx).1
                  have hps : ps <+: replaceAllVerbatim (p0 :: ps) repl xs :=
                    (List.cons_prefix_cons.mp hpfx).2
                  subst hp0
                  by_cases hpsnil : ps = []
                  · apply hmat
                    subst hpsnil
                    exact List.cons_prefix_cons.mpr ⟨rfl, List.nil_prefix⟩
                  · have hpsd : ∀ c ∈ ps, c ∉ repl := by
                      intro c hc hcr
                      exact hdisj c hcr (List.mem_cons_of_mem p0 hc)
                    have hpe := vr_prefix_extract _ repl hp hr n xs hxs ps hpsnil hps hpsd
                    exact hmat (List.cons_prefix_cons.mpr ⟨rfl, hpe⟩)
            · exact ih xs hxs hrec

lemma vr_preserve_no_occurrence (pat repl q : List Char) (hp : pat ≠ [])
    (hr : repl ≠ []) (hq : q ≠ []) (hdisj : ∀ c ∈ repl, c ∉ q) :
    ∀ (n : Nat) (s : List Char), s.length ≤ n → ¬ q <:+: s →
      ¬ q <:+: replaceAllVerbatim pat repl s := by
  intro n
  induction n with
  | zero =>
      intro s hs _ hinf
      have hnil : s = [] := List.eq_nil_of_length_eq_zero (Nat.le_zero.mp hs)
      subst hnil
      rw [vr_nil] at hinf
      simp [hp] at hinf
      exact hq hinf
  | succ n ih =>
      intro s hs hqs hinf
      cases s with
      | nil =>
          rw [vr_nil] at hinf
          simp [hp] at hinf
          exact hq hinf
      | cons x xs =>
          have hxs : xs.length ≤ n := by
            simp at hs
            omega
          by_cases hmat : pat <+: (x :: xs)
          · rw [vr_match pat repl (x :: xs) hp hmat] at hinf
            have hplen : 1 ≤ pat.length := by
              have := List.length_pos.mpr hp
              omega
            have hdlen : ((x :: xs).drop pat.length).length ≤ n := by
              simp [List.length_drop]
              omega
            have hqd : ¬ q <:+: (x :: xs).drop pat.length := by
              intro hx
              exact hqs (hx.trans (List.drop_suffix pat.length (x :: xs)).isInfix)
            exact ih ((x :: xs).drop pat.length) hdlen hqd
              (infix_of_append_disjoint hq hdisj hinf)
          · rw [vr_nomatch pat repl x xs hp hmat] at hinf
            rcases List.infix_cons_iff.mp hinf with hpfx | hrec
            · cases q with
              | nil => exact hq rfl
              | cons q0 qs =>
                  have hq0 : q0 = x := (List.cons_prefix_cons.mp hpfx).1
                  have hqsp : qs <+: replaceAllVerbatim pat repl xs :=
                    (List.cons_prefix_cons.mp hpfx).2
                  subst hq0
                  by_cases hqsnil : qs = []
                  · apply hqs
                    subst hqsnil
                    exact List.IsPrefix.isInfix
                      (List.cons_prefix_cons.mpr ⟨rfl, List.nil_prefix⟩)
                  · have hqsd : ∀ c ∈ qs, c ∉ repl := by
                      intro c hc hcr
                      exact hdisj c hcr (List.mem_cons_of_mem q0 hc)
                    have hpx := vr_prefix_extract pat repl hp hr n xs hxs qs hqsnil hqsp hqsd
                    exact hqs (List.IsPrefix.isInfix
                      (List.cons_prefix_cons.mpr ⟨rfl, hpx⟩))
            · have hqxs : ¬ q <:+: xs := by
                intro hx
                exact hqs (List.infix_cons_iff.mpr (Or.inr hx))
              exact ih xs hxs hqxs hrec

lemma disjoint_flip {a b : List Char} (h : ∀ c ∈ a, c ∉ b) : ∀ c ∈ b, c ∉ a :=
  fun c hcb hca => h c hca hcb

lemma vr_inversion (o p : List Char) (ho : o ≠ []) (hp : p ≠ []) :
    ∀ (n : Nat) (s : List Char), s.length ≤ n →
      (∀ c ∈ p, c ∉ s) → (∀ c ∈ p, c ∉ o) →
      replaceAllVerbatim p o (replaceAllVerbatim o p s) = s := by
  intro n
  induction n with
  | zero =>
      intro s hs _ _
      have hnil : s = [] := List.eq_nil_of_length_eq_zero (Nat.le_zero.mp hs)
      subst hnil
      rw [vr_nil, if_neg ho, vr_nil, if_neg hp]
  | succ n ih =>
      intro s hs hpts hpto
      cases s with
      | nil => rw [vr_nil, if_neg ho, vr_nil, if_neg hp]
      | cons x xs =>
          by_cases hmat : o <+: (x :: xs)
          · obtain ⟨rest, hrest⟩ := hmat
            have holen : 1 ≤ o.length := by
              have := List.length_pos.mpr ho
              omega
            have hdrop : (x :: xs).drop o.length = rest := by
              rw [← hrest]
              exact List.drop_left _ _
            have hrlen : rest.length ≤ n := by
              have hlen2 : (x :: xs).length = o.length + rest.length := by
                rw [← hrest]
                simp
              simp at hlen2 hs
              omega
            have hrsub : rest <:+ (x :: xs) := ⟨o, hrest⟩
            have hpr : ∀ c ∈ p, c ∉ rest := by
              intro c hc hcr
              exact hpts c hc (hrsub.subset hcr)
            rw [vr_match o p (x :: xs) ho ⟨rest, hrest⟩, hdrop,
              vr_match p o (p ++ replaceAllVerbatim o p rest) hp (List.prefix_append _ _),
              List.drop_left, ih rest hrlen hpr hpto, hrest]
          · have hnp : ¬ p <+: (x :: replaceAllVerbatim o p xs) := by
              cases p with
              | nil => exact absurd rfl hp
              | cons p0 ps =>
                  intro hpfx
                  have hp0 : p0 = x := (List.cons_prefix_cons.mp hpfx).1
                  have : p0 ∉ (x :: xs : List Char) :=
                    hpts p0 (List.mem_cons_self p0 ps)
                  rw [hp0] at this
                  exact this (List.mem_cons_self x xs)
            have hpxs : ∀ c ∈ p, c ∉ xs := by
              intro c hc hcx
              exact hpts c hc (List.mem_cons_of_mem x hcx)
            rw [vr_nomatch o p x xs ho hmat,
              vr_nomatch p o x (replaceAllVerbatim o p xs) hp hnp,
              ih xs (by simp at hs; omega) hpxs hpto]

lemma vr_comm (p1 r1 p2 r2 : List Char)
    (hp1 : p1 ≠ []) (hr1 : r1 ≠ []) (hp2 : p2 ≠ []) (hr2 : r2 ≠ [])
    (h21 : ∀ c ∈ p2, c ∉ p1)
    (hr2p1 : ∀ c ∈ r2, c ∉ p1)
    (hr1p2 : ∀ c ∈ r1, c ∉ p2) :
    ∀ (n : Nat) (u : List Char), u.length ≤ n →
      replaceAllVerbatim p1 r1 (replaceAllVerbatim p2 r2 u) =
        replaceAllVerbatim p2 r2 (replaceAllVerbatim p1 r1 u) := by
  intro n
  induction n with
  | zero =>
      intro u hu
      have hnil : u = [] := List.eq_nil_of_length_eq_zero (Nat.le_zero.mp hu)
      subst hnil
      simp [vr_nil, hp1, hp2]
  | succ n ih =>
      intro u hu
      cases u with
      | nil => simp [vr_nil, hp1, hp2]
      | cons x xs =>
          by_cases hm1 : p1 <+: (x :: xs)
          · obtain ⟨rest, hrest⟩ := hm1
            have h1len : 1 ≤ p1.length := by
              have := List.length_pos.mpr hp1
              omega
            have hdrop : (x :: xs).drop p1.length = rest := by
              rw [← hrest]
              exact List.drop_left _ _
            have hrlen : rest.length ≤ n := by
              have hlen2 : (x :: xs).length = p1.length + rest.length := by
                rw [← hrest]
                simp
              simp at hlen2 hu
              omega
            have hskip2 : replaceAllVerbatim p2 r2 (x :: xs) =
                p1 ++ replaceAllVerbatim p2 r2 rest := by
              rw [← hrest]
              exact vr_skip_disjoint p2 r2 hp2 p1 rest (disjoint_flip h21)
            have hL : replaceAllVerbatim p1 r1 (replaceAllVerbatim p2 r2 (x :: xs)) =
                r1 ++ replaceAllVerbatim p1 r1 (replaceAllVerbatim p2 r2 rest) := by
              rw [hskip2, vr_match p1 r1 _ hp1 (List.prefix_append _ _), List.drop_left]
            have hR1 : replaceAllVerbatim p1 r1 (x :: xs) =
                r1 ++ replaceAllVerbatim p1 r1 rest := by
              rw [vr_match p1 r1 (x :: xs) hp1 ⟨rest, hrest⟩, hdrop]
            have hR : replaceAllVerbatim p2 r2 (replaceAllVerbatim p1 r1 (x :: xs)) =
                r1 ++ replaceAllVerbatim p2 r2 (replaceAllVerbatim p1 r1 rest) := by
              rw [hR1]
              exact vr_skip_disjoint p2 r2 hp2 r1 _ hr1p2
            rw [hL, hR, ih rest hrlen]
          · by_cases hm2 : p2 <+: (x :: xs)
            · obtain ⟨rest, hrest⟩ := hm2
              have h2len : 1 ≤ p2.length := by
                have := List.length_pos.mpr hp2
                omega
              have hdrop : (x :: xs).drop p2.length = rest := by
                rw [← hrest]
                exact List.drop_left _ _
              have hrlen : rest.length ≤ n := by
                have hlen2 : (x :: xs).length = p2.length + rest.length := by
                  rw [← hrest]
                  simp
                simp at hlen2 hu
                omega
              have hL1 : replaceAllVerbatim p2 r2 (x :: xs) =
                  r2 ++ replaceAllVerbatim p2 r2 rest := by
                rw [vr_match p2 r2 (x :: xs) hp2 ⟨rest, hrest⟩, hdrop]
              have hL : replaceAllVerbatim p1 r1 (replaceAllVerbatim p2 r2 (x :: xs)) =
                  r2 ++ replaceAllVerbatim p1 r1 (replaceAllVerbatim p2 r2 rest) := by
                rw [hL1]
                exact vr_skip_disjoint p1 r1 hp1 r2 _ hr2p1
              have hskip1 : replaceAllVerbatim p1 r1 (x :: xs) =
                  p2 ++ replaceAllVerbatim p1 r1 rest := by
                rw [← hrest]
                exact vr_skip_disjoint p1 r1 hp1 p2 rest h21
              have hR : replaceAllVerbatim p2 r2 (replaceAllVerbatim p1 r1 (x :: xs)) =
                  r2 ++ replaceAllVerbatim p2 r2 (replaceAllVerbatim p1 r1 rest) := by
                rw [hskip1, vr_match p2 r2 _ hp2 (List.prefix_append _ _), List.drop_left]
              rw [hL, hR, ih rest hrlen]
            · have hxs : xs.length ≤ n := by
                simp at hu
                omega
              have hnp1 : ¬ p1 <+: (x :: replaceAllVerbatim p2 r2 xs) := by
                cases p1 with
                | nil => exact absurd rfl hp1
                | cons a as =>
                    intro hpfx
                    have ha : a = x := (List.cons_prefix_cons.mp hpfx).1
                    have has : as <+: replaceAllVerbatim p2 r2 xs :=
                      (List.cons_prefix_cons.mp hpfx).2
                    by_cases hasnil : as = []
                    · subst hasnil
                      exact hm1 (List.cons_prefix_cons.mpr ⟨ha, List.nil_prefix⟩)
                    · have hasd : ∀ c ∈ as, c ∉ r2 := fun c hc hcr =>
                        hr2p1 c hcr (List.mem_cons_of_mem a hc)
                      have hax := vr_prefix_extract p2 r2 hp2 hr2 n xs hxs as hasnil has hasd
                      exact hm1 (List.cons_prefix_cons.mpr ⟨ha, hax⟩)
              have hnp2 : ¬ p2 <+: (x :: replaceAllVerbatim p1 r1 xs) := by
                cases p2 with
                | nil => exact absurd rfl hp2
                | cons a as =>
                    intro hpfx
                    have ha : a = x := (List.cons_prefix_cons.mp hpfx).1
                    have has : as <+: replaceAllVerbatim p1 r1 xs :=
                      (List.cons_prefix_cons.mp hpfx).2
                    by_cases hasnil : as = []
                    · subst hasnil
                      exact hm2 (List.cons_prefix_cons.mpr ⟨ha, List.nil_prefix⟩)
                    · have hasd : ∀ c ∈ as, c ∉ r1 := fun c hc hcr =>
                        disjoint_flip hr1p2 c (List.mem_cons_of_mem a hc) hcr
                      have hax := vr_prefix_extract p1 r1 hp1 hr1 n xs hxs as hasnil has hasd
                      exact hm2 (List.cons_prefix_cons.mpr ⟨ha, hax⟩)
              rw [vr_nomatch p2 r2 x xs hp2 hm2, vr_nomatch p1 r1 x xs hp1 hm1,
                vr_nomatch p1 r1 x _ hp1 hnp1, vr_nomatch p2 r2 x _ hp2 hnp2,
                ih xs hxs]

lemma redactFoldV_nil (t : List Char) : redactFoldV [] t = t := rfl

lemma redactFoldV_cons (hd : List Char × List Char) (rest : List (List Char × List Char))
    (t : List Char) :
    redactFoldV (hd :: rest) t = redactFoldV rest (replaceAllVerbatim hd.1 hd.2 t) := rfl

lemma unredactFoldV_cons (hd : List Char × List Char) (rest : List (List Char × List Char))
    (t : List Char) :
    unredactFoldV (hd :: rest) t = unredactFoldV rest (replaceAllVerbatim hd.2 hd.1 t) := rfl

lemma redactFoldV_preserve_no_occurrence (q : List Char) (hq : q ≠ []) :
    ∀ (ps : List (List Char × List Char)) (u : List Char),
      (∀ op ∈ ps, op.1 ≠ [] ∧ op.2 ≠ []) →
      (∀ op ∈ ps, ∀ c ∈ op.2, c ∉ q) →
      ¬ q <:+: u → ¬ q <:+: redactFoldV ps u := by
  intro ps
  induction ps with
  | nil =>
      intro u _ _ hu
      exact hu
  | cons hd rest ih =>
      intro u hne hdisj hu
      rw [redactFoldV_cons]
      have hhd := hne hd (List.mem_cons_self hd rest)
      have hstep : ¬ q <:+: replaceAllVerbatim hd.1 hd.2 u :=
        vr_preserve_no_occurrence hd.1 hd.2 q hhd.1 hhd.2 hq
          (hdisj hd (List.mem_cons_self hd rest)) u.length u (Nat.le_refl _) hu
      exact ih (replaceAllVerbatim hd.1 hd.2 u)
        (fun op hop => hne op (List.mem_cons_of_mem hd hop))
        (fun op hop => hdisj op (List.mem_cons_of_mem hd hop)) hstep

lemma redactFoldV_no_match (ps : List (List Char × List Char))
    (hne : ∀ op ∈ ps, op.1 ≠ [] ∧ op.2 ≠ [])
    (hdisj : ∀ op ∈ ps, ∀ op' ∈ ps, ∀ c ∈ op.2, c ∉ op'.1) :
    ∀ t, ∀ op ∈ ps, ¬ op.1 <:+: redactFoldV ps t := by
  induction ps with
  | nil =>
      intro t op hop
      exact absurd hop (List.not_mem_nil op)
  | cons hd rest ih =>
      intro t op hop
      have hhd := hne hd (List.mem_cons_self hd rest)
      rcases List.mem_cons.mp hop with rfl | hop'
      · rw [redactFoldV_cons]
        have h1 : ¬ op.1 <:+: replaceAllVerbatim op.1 op.2 t :=
          vr_no_pat op.1 op.2 hhd.1 hhd.2
            (hdisj op (List.mem_cons_self op rest) op (List.mem_cons_self op rest))
            t.length t (Nat.le_refl _)
        exact redactFoldV_preserve_no_occurrence op.1 hhd.1 rest _
          (fun op' hop' => hne op' (List.mem_cons_of_mem op hop'))
          (fun op' hop' => hdisj op' (List.mem_cons_of_mem op hop')
            op (List.mem_cons_self op rest)) h1
      · rw [redactFoldV_cons]
        exact ih (fun o ho => hne o (List.mem_cons_of_mem hd ho))
          (fun o ho o' ho' => hdisj o (List.mem_cons_of_mem hd ho)
            o' (List.mem_cons_of_mem hd ho'))
          (replaceAllVerbatim hd.1 hd.2 t) op hop'

lemma redactFoldV_id (ps : List (List Char × List Char))
    (hne : ∀ op ∈ ps, op.1 ≠ []) :
    ∀ u, (∀ op ∈ ps, ¬ op.1 <:+: u) → redactFoldV ps u = u := by
  induction ps with
  | nil =>
      intro u _
      rfl
  | cons hd rest ih =>
      intro u hmat
      rw [redactFoldV_cons,
        vr_id_of_no_occurrence hd.1 hd.2 (hne hd (List.mem_cons_self hd rest)) u
          (hmat hd (List.mem_cons_self hd rest))]
      exact ih (fun op hop => hne op (List.mem_cons_of_mem hd hop)) u
        (fun op hop => hmat op (List.mem_cons_of_mem hd hop))

lemma redactFoldV_idem (ps : List (List Char × List Char))
    (hne : ∀ op ∈ ps, op.1 ≠ [] ∧ op.2 ≠ [])
    (hdisj : ∀ op ∈ ps, ∀ op' ∈ ps, ∀ c ∈ op.2, c ∉ op'.1) (t : List Char) :
    redactFoldV ps (redactFoldV ps t) = redactFoldV ps t :=
  redactFoldV_id ps (fun op hop => (hne op hop).1) (redactFoldV ps t)
    (fun op hop => redactFoldV_no_match ps hne hdisj t op hop)

lemma foldl_applyCompiled_exact (l : List Rule)
    (hl : ∀ r ∈ l, r.type = RuleType.exact ∧ r.caseSensitive = true ∧ '$' ∉ r.placeholder) :
    ∀ st : RedactionResult,
      ((l.map compileRule).foldl applyCompiled st).text =
        redactFoldV (l.map (fun r => (r.original, r.placeholder))) st.text := by
  induction l with
  | nil =>
      intro st
      rfl
  | cons r l' ih =>
      intro st
      have hr := hl r (List.mem_cons_self r l')
      have hstep : (applyCompiled st (compileRule r)).text =
          replaceAllVerbatim r.original r.placeholder st.text := by
        rw [applyCompiled_text, compileRule_of_exact r hr.1]
        simp only [hr.2.1, Bool.not_true]
        exact replaceAll_eq_verbatim r.original r.placeholder st.text hr.2.2
      simp only [List.map_cons, List.foldl_cons]
      rw [ih (fun x hx => hl x (List.mem_cons_of_mem r hx)) (applyCompiled st (compileRule r)),
        hstep, redactFoldV_cons]

lemma redact_text_eq_foldV (rules : List Rule)
    (hall : ∀ r ∈ rules, r.enabled = true →
      r.type = RuleType.exact ∧ r.caseSensitive = true ∧ '$' ∉ r.placeholder)
    (t : List Char) (ht : t ≠ []) :
    (redact t rules).text = redactFoldV (rulePairs rules) t := by
  by_cases hr : rules = []
  · subst hr
    simp [redact, rulePairs, redactFoldV]
  · have hcond : ¬ (t = [] ∨ rules = []) := by
      push_neg
      exact ⟨ht, hr⟩
    rw [redact_eq_of_ne t rules hcond]
    have hfl : ∀ r ∈ rules.filter (fun r => r.enabled),
        r.type = RuleType.exact ∧ r.caseSensitive = true ∧ '$' ∉ r.placeholder := by
      intro r hrm
      have h1 := List.mem_of_mem_filter hrm
      have h2 := List.of_mem_filter hrm
      exact hall r h1 h2
    have hpr2 : ∀ y ∈ (rules.filter (fun r => r.enabled)).map compileRule,
        y.priority = 2 := by
      intro y hy
      rcases List.mem_map.mp hy with ⟨r, hrm, rfl⟩
      exact compileRule_priority_exact r (hfl r hrm).1
    have hsort : jsSort redactCmp ((rules.filter (fun r => r.enabled)).map compileRule) =
        (rules.filter (fun r => r.enabled)).map compileRule := by
      rw [jsSort_redactCmp _ (fun y hy => Or.inr (hpr2 y hy))]
      have h2 : ((rules.filter (fun r => r.enabled)).map compileRule).filter
          (fun cr => cr.priority == 2) = (rules.filter (fun r => r.enabled)).map compileRule :=
        List.filter_eq_self.mpr (by intro a ha; simp [hpr2 a ha])
      have h1 : ((rules.filter (fun r => r.enabled)).map compileRule).filter
          (fun cr => cr.priority == 1) = [] :=
        List.filter_eq_nil_iff.mpr (by intro a ha; simp [hpr2 a ha])
      rw [h2, h1]
      simp
    rw [hsort]
    exact foldl_applyCompiled_exact (rules.filter (fun r => r.enabled)) hfl
      (RedactionResult.mk t [])

lemma foldl_applyUnredact_exact (l : List Rule)
    (hl : ∀ r ∈ l, '$' ∉ r.original) :
    ∀ t : List Char,
      (l.map compileRule).foldl applyUnredact t =
        unredactFoldV (l.map (fun r => (r.original, r.placeholder))) t := by
  induction l with
  | nil =>
      intro t
      rfl
  | cons r l' ih =>
      intro t
      have hr := hl r (List.mem_cons_self r l')
      simp only [List.map_cons, List.foldl_cons]
      rw [applyUnredact_eq, compileRule_rule, ih (fun x hx => hl x (List.mem_cons_of_mem r hx)),
        unredactFoldV_cons]
      rw [replaceAll_eq_verbatim r.placeholder r.original t hr]

lemma unredact_eq_foldV (rules : List Rule)
    (hall : ∀ r ∈ rules, r.enabled = true →
      r.type = RuleType.exact ∧ '$' ∉ r.original)
    (t : List Char) (ht : t ≠ []) :
    unredact t rules = unredactFoldV (rulePairs rules) t := by
  by_cases hr : rules = []
  · subst hr
    simp [unredact, rulePairs, unredactFoldV]
  · have hcond : ¬ (t = [] ∨ rules = []) := by
      push_neg
      exact ⟨ht, hr⟩
    rw [unredact_eq_of_ne t rules hcond]
    have hfl : ∀ r ∈ rules.filter (fun r => r.enabled),
        r.type = RuleType.exact ∧ '$' ∉ r.original := by
      intro r hrm
      exact hall r (List.mem_of_mem_filter hrm) (List.of_mem_filter hrm)
    have hpr2 : ∀ y ∈ (rules.filter (fun r => r.enabled)).map compileRule,
        y.priority = 2 := by
      intro y hy
      rcases List.mem_map.mp hy with ⟨r, hrm, rfl⟩
      exact compileRule_priority_exact r (hfl r hrm).1
    have hsort : jsSort unredactCmp ((rules.filter (fun r => r.enabled)).map compileRule) =
        (rules.filter (fun r => r.enabled)).map compileRule := by
      rw [jsSort_unredactCmp _ (fun y hy => Or.inr (hpr2 y hy))]
      have h2 : ((rules.filter (fun r => r.enabled)).map compileRule).filter
          (fun cr => cr.priority == 2) = (rules.filter (fun r => r.enabled)).map compileRule :=
        List.filter_eq_self.mpr (by intro a ha; simp [hpr2 a ha])
      have h1 : ((rules.filter (fun r => r.enabled)).map compileRule).filter
          (fun cr => cr.priority == 1) = [] :=
        List.filter_eq_nil_iff.mpr (by intro a ha; simp [hpr2 a ha])
      rw [h2, h1]
      simp
    rw [hsort]
    exact foldl_applyUnredact_exact (rules.filter (fun r => r.enabled))
      (fun r hrm => (hfl r hrm).2) t

lemma rulePairs_mem {rules : List Rule} {op : List Char × List Char}
    (hop : op ∈ rulePairs rules) :
    ∃ r ∈ rules, r.enabled = true ∧ op = (r.original, r.placeholder) := by
  rcases List.mem_map.mp hop with ⟨r, hrm, rfl⟩
  exact ⟨r, List.mem_of_mem_filter hrm, List.of_mem_filter hrm, rfl⟩

/-- C4 (amended).  Redaction reaches a fixed point in one pass for rule sets
of enabled exact case-sensitive rules with non-empty match texts, non-empty
`$`-free placeholders, and no character shared between any placeholder and
any match text.  (The claim's weaker side condition — no placeholder is
itself matched by another rule — does not suffice: see the
counterexample, where a replacement merely overlaps neighbouring text.) -/
theorem redact_idempotent (rules : List Rule) (t : List Char)
    (hall : ∀ r ∈ rules, r.enabled = true →
      r.type = RuleType.exact ∧ r.caseSensitive = true ∧
      r.original ≠ [] ∧ r.placeholder ≠ [] ∧ '$' ∉ r.placeholder)
    (hdisj : ∀ r ∈ rules, r.enabled = true → ∀ r' ∈ rules, r'.enabled = true →
      ∀ c ∈ r.placeholder, c ∉ r'.original) :
    (redact (redact t rules).text rules).text = (redact t rules).text := by
  have hall' : ∀ r ∈ rules, r.enabled = true →
      r.type = RuleType.exact ∧ r.caseSensitive = true ∧ '$' ∉ r.placeholder :=
    fun r h he => ⟨(hall r h he).1, (hall r h he).2.1, (hall r h he).2.2.2.2⟩
  by_cases ht : t = []
  · subst ht
    simp [redact]
  · have hne : ∀ op ∈ rulePairs rules, op.1 ≠ [] ∧ op.2 ≠ [] := by
      intro op hop
      rcases rulePairs_mem hop with ⟨r, hrm, hren, rfl⟩
      exact ⟨(hall r hrm hren).2.2.1, (hall r hrm hren).2.2.2.1⟩
    have hdisj' : ∀ op ∈ rulePairs rules, ∀ op' ∈ rulePairs rules,
        ∀ c ∈ op.2, c ∉ op'.1 := by
      intro op hop op' hop'
      rcases rulePairs_mem hop with ⟨r, hrm, hren, rfl⟩
      rcases rulePairs_mem hop' with ⟨r', hrm', hren', rfl⟩
      exact hdisj r hrm hren r' hrm' hren'
    have h1 := redact_text_eq_foldV rules hall' t ht
    by_cases hout : (redact t rules).text = []
    · rw [hout]
      simp [redact]
    · rw [redact_text_eq_foldV rules hall' (redact t rules).text hout, h1]
      exact redactFoldV_idem (rulePairs rules) hne hdisj' t

/-- Witness for C4's amended theorem at a concrete input. -/
theorem redact_idempotent_witness :
    (redact (redact "abc".toList
        [mkRule ['A'] "abc".toList "X".toList RuleType.exact true true 0]).text
      [mkRule ['A'] "abc".toList "X".toList RuleType.exact true true 0]).text =
    (redact "abc".toList
      [mkRule ['A'] "abc".toList "X".toList RuleType.exact true true 0]).text :=
  redact_idempotent [mkRule ['A'] "abc".toList "X".toList RuleType.exact true true 0]
    "abc".toList (by decide) (by decide)

/-- Counterexample to C4 as stated: the single enabled exact rule replaces
`aa` by `a`.  No rule's placeholder is matched by another enabled rule (the
rule's matcher `aa` does not even match its own placeholder `a`), yet
redaction is not a fixed point after one pass: `aaaa` becomes `aa` and a
second pass yields `a`, because the shortened replacement recombines with
neighbouring text into a fresh match. -/
theorem redact_idempotent_counterexample :
    ¬ "aa".toList <:+: "a".toList ∧
    (redact "aaaa".toList
      [mkRule ['A'] "aa".toList "a".toList RuleType.exact true true 0]).text =
      "aa".toList ∧
    (redact (redact "aaaa".toList
        [mkRule ['A'] "aa".toList "a".toList RuleType.exact true true 0]).text
      [mkRule ['A'] "aa".toList "a".toList RuleType.exact true true 0]).text ≠
    (redact "aaaa".toList
      [mkRule ['A'] "aa".toList "a".toList RuleType.exact true true 0]).text := by
  decide

lemma redactFoldV_ne_nil (ps : List (List Char × List Char))
    (hne : ∀ op ∈ ps, op.2 ≠ []) :
    ∀ t, t ≠ [] → redactFoldV ps t ≠ [] := by
  induction ps with
  | nil =>
      intro t ht
      exact ht
  | cons hd rest ih =>
      intro t ht
      rw [redactFoldV_cons]
      exact ih (fun op hop => hne op (List.mem_cons_of_mem hd hop))
        (replaceAllVerbatim hd.1 hd.2 t)
        (vr_ne_nil hd.1 hd.2 t (hne hd (List.mem_cons_self hd rest)) ht)

lemma unredactFoldV_comm (o p : List Char) (ho : o ≠ []) (hp : p ≠ []) :
    ∀ (ps : List (List Char × List Char)) (u : List Char),
      (∀ op ∈ ps, op.1 ≠ [] ∧ op.2 ≠ []) →
      (∀ op ∈ ps, ∀ c ∈ op.2, c ∉ p) →
      (∀ op ∈ ps, ∀ c ∈ op.1, c ∉ p) →
      (∀ op ∈ ps, ∀ c ∈ op.2, c ∉ o) →
      unredactFoldV ps (replaceAllVerbatim p o u) =
        replaceAllVerbatim p o (unredactFoldV ps u) := by
  intro ps
  induction ps with
  | nil =>
      intro u _ _ _ _
      rfl
  | cons hd rest ih =>
      intro u hne hA hB hC
      have hhd := hne hd (List.mem_cons_self hd rest)
      rw [unredactFoldV_cons, unredactFoldV_cons,
        ← vr_comm p o hd.2 hd.1 hp ho hhd.2 hhd.1
          (hA hd (List.mem_cons_self hd rest))
          (hB hd (List.mem_cons_self hd rest))
          (disjoint_flip (hC hd (List.mem_cons_self hd rest)))
          u.length u (Nat.le_refl _)]
      exact ih (replaceAllVerbatim hd.2 hd.1 u)
        (fun op hop => hne op (List.mem_cons_of_mem hd hop))
        (fun op hop => hA op (List.mem_cons_of_mem hd hop))
        (fun op hop => hB op (List.mem_cons_of_mem hd hop))
        (fun op hop => hC op (List.mem_cons_of_mem hd hop))

lemma roundtripFoldV :
    ∀ (ps : List (List Char × List Char)) (t : List Char),
      (∀ op ∈ ps, op.1 ≠ [] ∧ op.2 ≠ []) →
      (∀ op ∈ ps, ∀ op' ∈ ps, ∀ c ∈ op.2, c ∉ op'.1) →
      List.Pairwise (fun a b => ∀ c ∈ a.2, c ∉ b.2) ps →
      (∀ op ∈ ps, ∀ c ∈ op.2, c ∉ t) →
      unredactFoldV ps (redactFoldV ps t) = t := by
  intro ps
  induction ps with
  | nil =>
      intro t _ _ _ _
      rfl
  | cons hd rest ih =>
      intro t hne hcross hpw ht
      have hhd := hne hd (List.mem_cons_self hd rest)
      rcases List.pairwise_cons.mp hpw with ⟨hhdrest, hpwrest⟩
      rw [redactFoldV_cons, unredactFoldV_cons]
      have hA : ∀ op ∈ rest, ∀ c ∈ op.2, c ∉ hd.2 :=
        fun op hop => disjoint_flip (hhdrest op hop)
      have hB : ∀ op ∈ rest, ∀ c ∈ op.1, c ∉ hd.2 :=
        fun op hop => disjoint_flip
          (hcross hd (List.mem_cons_self hd rest) op (List.mem_cons_of_mem hd hop))
      have hC : ∀ op ∈ rest, ∀ c ∈ op.2, c ∉ hd.1 :=
        fun op hop => hcross op (List.mem_cons_of_mem hd hop)
          hd (List.mem_cons_self hd rest)
      rw [unredactFoldV_comm hd.1 hd.2 hhd.1 hhd.2 rest _
        (fun op hop => hne op (List.mem_cons_of_mem hd hop)) hA hB hC]
      have ht1 : ∀ op ∈ rest, ∀ c ∈ op.2, c ∉ replaceAllVerbatim hd.1 hd.2 t := by
        intro op hop c hc hmem
        rcases vr_chars hd.1 hd.2 t.length t (Nat.le_refl _) c hmem with h1 | h2
        · exact ht op (List.mem_cons_of_mem hd hop) c hc h1
        · exact hA op hop c hc h2
      rw [ih (replaceAllVerbatim hd.1 hd.2 t)
        (fun op hop => hne op (List.mem_cons_of_mem hd hop))
        (fun op hop op' hop' => hcross op (List.mem_cons_of_mem hd hop)
          op' (List.mem_cons_of_mem hd hop'))
        hpwrest ht1]
      exact vr_inversion hd.1 hd.2 hhd.1 hhd.2 t.length t (Nat.le_refl _)
        (ht hd (List.mem_cons_self hd rest))
        (hcross hd (List.mem_cons_self hd rest) hd (List.mem_cons_self hd rest))

/-- C3 (amended).  Round trip: for rule sets of enabled exact case-sensitive
rules with non-empty `$`-free match texts and non-empty `$`-free
placeholders, where no character of any placeholder occurs in any enabled
rule's match text, in any other enabled rule's placeholder, or in the text
`t`, `unredact` inverts `redact`: `unredact (redact t R).text R = t`.  (The
claim's weaker side conditions — placeholders unique and not colliding with
any match or placeholder — do not suffice: see the counterexample, where a
placeholder overlaps neighbouring text of `t`.) -/
theorem redact_unredact_roundtrip (rules : List Rule) (t : List Char)
    (hall : ∀ r ∈ rules, r.enabled = true →
      r.type = RuleType.exact ∧ r.caseSensitive = true ∧
      r.original ≠ [] ∧ r.placeholder ≠ [] ∧
      '$' ∉ r.original ∧ '$' ∉ r.placeholder)
    (hcross : ∀ r ∈ rules, r.enabled = true → ∀ r' ∈ rules, r'.enabled = true →
      ∀ c ∈ r.placeholder, c ∉ r'.original)
    (hpair : List.Pairwise (fun a b => ∀ c ∈ a.placeholder, c ∉ b.placeholder)
      (rules.filter (fun r => r.enabled)))
    (htfresh : ∀ r ∈ rules, r.enabled = true → ∀ c ∈ r.placeholder, c ∉ t) :
    unredact (redact t rules).text rules = t := by
  by_cases ht : t = []
  · subst ht
    simp [redact, unredact]
  · have hallR : ∀ r ∈ rules, r.enabled = true →
        r.type = RuleType.exact ∧ r.caseSensitive = true ∧ '$' ∉ r.placeholder :=
      fun r h he => ⟨(hall r h he).1, (hall r h he).2.1, (hall r h he).2.2.2.2.2⟩
    have hallU : ∀ r ∈ rules, r.enabled = true →
        r.type = RuleType.exact ∧ '$' ∉ r.original :=
      fun r h he => ⟨(hall r h he).1, (hall r h he).2.2.2.2.1⟩
    have hne : ∀ op ∈ rulePairs rules, op.1 ≠ [] ∧ op.2 ≠ [] := by
      intro op hop
      rcases rulePairs_mem hop with ⟨r, hrm, hren, rfl⟩
      exact ⟨(hall r hrm hren).2.2.1, (hall r hrm hren).2.2.2.1⟩
    have hcross' : ∀ op ∈ rulePairs rules, ∀ op' ∈ rulePairs rules,
        ∀ c ∈ op.2, c ∉ op'.1 := by
      intro op hop op' hop'
      rcases rulePairs_mem hop with ⟨r, hrm, hren, rfl⟩
      rcases rulePairs_mem hop' with ⟨r', hrm', hren', rfl⟩
      exact hcross r hrm hren r' hrm' hren'
    have hpair' : List.Pairwise (fun a b => ∀ c ∈ a.2, c ∉ b.2) (rulePairs rules) :=
      List.Pairwise.map _ (fun a b hab => hab) hpair
    have htfresh' : ∀ op ∈ rulePairs rules, ∀ c ∈ op.2, c ∉ t := by
      intro op hop
      rcases rulePairs_mem hop with ⟨r, hrm, hren, rfl⟩
      exact htfresh r hrm hren
    have h1 := redact_text_eq_foldV rules hallR t ht
    have hout : (redact t rules).text ≠ [] := by
      rw [h1]
      exact redactFoldV_ne_nil (rulePairs rules)
        (fun op hop => (hne op hop).2) t ht
    rw [unredact_eq_foldV rules hallU (redact t rules).text hout, h1]
    exact roundtripFoldV (rulePairs rules) t hne hcross' hpair' htfresh'

/-- Witness for C3's amended theorem at a concrete input. -/
theorem redact_unredact_roundtrip_witness :
    unredact (redact "abc".toList
        [mkRule ['A'] "bc".toList "XY".toList RuleType.exact true true 0]).text
      [mkRule ['A'] "bc".toList "XY".toList RuleType.exact true true 0] =
    "abc".toList :=
  redact_unredact_roundtrip
    [mkRule ['A'] "bc".toList "XY".toList RuleType.exact true true 0] "abc".toList
    (by decide) (by decide) (by decide) (by decide)

/-- Counterexample to C3 as stated: the single enabled exact case-sensitive
rule replaces `bc` by `aa`.  Its placeholder is trivially unique, it is not
a substring of the match text or vice versa, and the text `abc` does not
contain the placeholder — every side condition of the claim holds — yet
`redact` turns `abc` into `aaa`, the leading `a` of the text and the
inserted `aa` overlap into a fresh earlier occurrence, and `unredact`
restores `bca` instead of `abc`. -/
theorem redact_unredact_roundtrip_counterexample :
    ¬ "aa".toList <:+: "bc".toList ∧
    ¬ "bc".toList <:+: "aa".toList ∧
    ¬ "aa".toList <:+: "abc".toList ∧
    (redact "abc".toList
      [mkRule ['A'] "bc".toList "aa".toList RuleType.exact true true 0]).text =
      "aaa".toList ∧
    unredact (redact "abc".toList
        [mkRule ['A'] "bc".toList "aa".toList RuleType.exact true true 0]).text
      [mkRule ['A'] "bc".toList "aa".toList RuleType.exact true true 0] =
      "bca".toList ∧
    unredact (redact "abc".toList
        [mkRule ['A'] "bc".toList "aa".toList RuleType.exact true true 0]).text
      [mkRule ['A'] "bc".toList "aa".toList RuleType.exact true true 0] ≠
      "abc".toList := by
  decide

/-- C7.  Concrete demonstration that the re-entrancy guard does not behave
as specified.  (i) An input-triggered rewrite: `updateContent` dispatches a
synthetic `input` event but sets neither skip flag, so the binder processes
its own notification and runs `redact` again (outcome `unchanged`, not
`suppressed` — zero suppressions where the claim requires exactly one).
(ii) The paste path sets BOTH `skipNextInput` and `skipNextRedaction` before
its single synthetic dispatch; the synthetic event consumes only the first
flag, so the next genuine user edit — typing a fresh `a` that `redact`
would rewrite — is also suppressed (two suppressions, and sensitive text is
left unredacted). -/
theorem binder_guard_counterexample :
    handleInput [mkRule ['A'] "a".toList "X".toList RuleType.exact true true 0] true
        (BinderState.mk "a".toList false false) =
      (BinderState.mk "X".toList false false, InputOutcome.rewrote) ∧
    (handleInput [mkRule ['A'] "a".toList "X".toList RuleType.exact true true 0] true
        (BinderState.mk "X".toList false false)).2 = InputOutcome.unchanged ∧
    handlePaste [mkRule ['A'] "a".toList "X".toList RuleType.exact true true 0] true
        [] [] "a".toList (BinderState.mk [] false false) =
      (BinderState.mk "X".toList true true, PasteOutcome.redactedInsert) ∧
    handleInput [mkRule ['A'] "a".toList "X".toList RuleType.exact true true 0] true
        (BinderState.mk "X".toList true true) =
      (BinderState.mk "X".toList false true, InputOutcome.suppressed) ∧
    handleInput [mkRule ['A'] "a".toList "X".toList RuleType.exact true true 0] true
        (BinderState.mk "Xa".toList false true) =
      (BinderState.mk "Xa".toList false false, InputOutcome.suppressed) ∧
    (redact "Xa".toList
      [mkRule ['A'] "a".toList "X".toList RuleType.exact true true 0]).appliedRules ≠ [] := by
  decide

/-- C8.  Behaviour of the copy listener: an event out of selection (none or
empty text) is left untouched; for an in-scope event with a non-empty
selection and clipboard data available, the default copy is suppressed and
the plain-text payload set to the un-redacted selection exactly when
un-redaction changes the selection; and when building the HTML payload
throws, the plain-text override still takes effect (html payload simply
stays unset). -/
theorem createClipboardListener_spec (rules : List Rule) (cr : Bool)
    (e : CopyEventModel) (hscope : cr = true → e.inContainer = true) :
    (e.selection = none → createClipboardListener rules cr e = untouchedEvent) ∧
    (∀ sel, e.selection = some sel →
      (sel.text = [] → createClipboardListener rules cr e = untouchedEvent) ∧
      (sel.text ≠ [] → e.clipboardDataPresent = true →
        (((createClipboardListener rules cr e).defaultPrevented = true ∧
            (createClipboardListener rules cr e).plainData =
              some (unredact sel.text rules)) ↔
          unredact sel.text rules ≠ sel.text) ∧
        (unredact sel.text rules ≠ sel.text →
          sel.rangeContent = Except.error () →
            createClipboardListener rules cr e =
              ClipboardResult.mk true (some (unredact sel.text rules)) none))) := by
  have hcont : (cr && !e.inContainer) = false := by
    cases cr
    · simp
    · simp [hscope rfl]
  constructor
  · intro hsel
    simp [createClipboardListener, hcont, hsel]
  · intro sel hsel
    constructor
    · intro htext
      simp [createClipboardListener, hcont, hsel, htext]
    · intro htext hcd
      constructor
      · by_cases hdiff : unredact sel.text rules = sel.text
        · constructor
          · intro hres
            simp [createClipboardListener, hcont, hsel, htext, hdiff,
              untouchedEvent] at hres
          · intro hne
            exact absurd hdiff hne
        · constructor
          · intro _
            exact hdiff
          · intro _
            simp only [createClipboardListener, hcont, Bool.false_eq_true,
              if_false, hsel, htext, if_neg htext]
            have hcnd : unredact sel.text rules ≠ sel.text ∧
                e.clipboardDataPresent = true := ⟨hdiff, hcd⟩
            rw [if_pos hcnd]
            cases hrc : sel.rangeContent with
            | error u => simp
            | ok frag =>
                by_cases hhc : renderHtmlList frag = []
                · simp [hhc]
                · simp [hhc]
      · intro hdiff hrc
        simp only [createClipboardListener, hcont, Bool.false_eq_true,
          if_false, hsel]
        rw [if_neg (by simpa using htext)]
        have hcnd : unredact sel.text rules ≠ sel.text ∧
            e.clipboardDataPresent = true := ⟨hdiff, hcd⟩
        rw [if_pos hcnd, hrc]

/-- Witness for C8 at a concrete event: the selection is the placeholder
text, un-redaction restores the phone number, the HTML build fails, and the
plain-text override still takes effect. -/
theorem createClipboardListener_spec_witness :
    createClipboardListener
        [mkRule ['A'] "555-1234".toList "[PHONE]".toList RuleType.exact true true 0]
        false
        (CopyEventModel.mk false
          (some (SelectionModel.mk "[PHONE]".toList (Except.error ()))) true) =
      ClipboardResult.mk true
        (some (unredact "[PHONE]".toList
          [mkRule ['A'] "555-1234".toList "[PHONE]".toList RuleType.exact true true 0]))
        none := by
  have h := createClipboardListener_spec
    [mkRule ['A'] "555-1234".toList "[PHONE]".toList RuleType.exact true true 0]
    false
    (CopyEventModel.mk false
      (some (SelectionModel.mk "[PHONE]".toList (Except.error ()))) true)
    (by intro hx; exact absurd hx (by decide))
  exact ((h.2 (SelectionModel.mk "[PHONE]".toList (Except.error ())) rfl).2
    (by decide) rfl).2 (by decide) rfl
